import Mathlib

/-!
# Timeline chart: interval consolidation

A shallow embedding of `getUser`, `mergeEvents` and `prepareTimelineData` from
`src/components/Dashboard.jsx`, with the owner directory of `src/utils/enums.js`.

Modelling conventions.
* A date value of a record (`start`, `end`, `startDate`, `endDate`) is a `Stamp`: the raw
  text the record stores, together with the time value `new Date(text)` has, in
  milliseconds. The code copies the raw text and compares the time values; so does the
  embedding. Only inputs whose time values are comparable (no invalid date) are modelled.
  A stamp's time is the time of its text; results quantified over all stamps hold in
  particular for those.
* Identifiers are natural numbers; `Date.now()` is a parameter `now`.
* A plain JavaScript object used as a dictionary is a list of own keys in insertion
  order, each with the array stored under it, on top of the properties every object
  inherits from `Object.prototype`. `Object.keys` lists array-index keys first, in
  ascending order, then the other keys in insertion order.
* An exception is modelled by `none`; the `try`/`catch` of `mergeEvents` turns it into the
  list merged so far.
* `JSON.parse(JSON.stringify(events))` is a deep copy; the embedding is pure, so the copy
  is the list itself.
* `Array.prototype.sort` is stable; it is modelled by insertion sort, which is stable
  too, so both give the same array under a comparator that is a total preorder.
-/

namespace TimelineChart

/-! ## Dictionary objects -/

/-- Own properties of a dictionary object, in insertion order. -/
abbrev Buckets (κ α : Type) := List (κ × List α)

/-- The names of the properties every plain object inherits from `Object.prototype`. Each
holds a function or an object: truthy, and without a method `push`. -/
def objectPrototypeKeys : List String :=
  ["constructor", "__defineGetter__", "__defineSetter__", "hasOwnProperty",
   "__lookupGetter__", "__lookupSetter__", "isPrototypeOf", "propertyIsEnumerable",
   "toString", "valueOf", "__proto__", "toLocaleString"]

/-- The reducer body `acc[k] = acc[k] || []; acc[k].push(e)`. Under an own key the array
gets the element. Under a key that is not an own one, `acc[k]` reads the inherited
property when `inherited k`: it is truthy, it is kept, and `.push` raises (`none`);
otherwise a new array is stored under `k`. -/
def pushInto {κ α : Type} [DecidableEq κ] (inherited : κ → Bool) :
    Buckets κ α → κ → α → Option (Buckets κ α)
  | [], k, e => if inherited k then none else some [(k, [e])]
  | (k', es) :: rest, k, e =>
    if k' = k then some ((k', es ++ [e]) :: rest)
    else (pushInto inherited rest k e).map (fun r => (k', es) :: r)

/-- The grouping `xs.reduce((acc, x) => { ...; return acc }, {})` on the key `key`;
`none` when the reducer raises. -/
def groupInto {κ α : Type} [DecidableEq κ] (inherited : κ → Bool) (key : α → κ)
    (xs : List α) : Option (Buckets κ α) :=
  xs.foldl (fun acc x => acc.bind (fun o => pushInto inherited o (key x) x)) (some [])

/-- The order `Object.keys(o)` gives: keys that are array indices first, in
ascending numeric order, then every other key in insertion order. `index k`
is the numeric value of `k` when `k` is an array index. -/
def objectKeys {κ α : Type} (index : κ → Option Nat) (o : Buckets κ α) : List κ :=
  List.insertionSort (fun a b => (index a).getD 0 ≤ (index b).getD 0)
      ((o.map Prod.fst).filter (fun k => (index k).isSome))
    ++ (o.map Prod.fst).filter (fun k => (index k).isNone)

/-- The property read `o[k]`; an absent key reads as the empty array (the
code only reads keys that `Object.keys` listed). -/
def bucketAt {κ α : Type} [DecidableEq κ] : Buckets κ α → κ → List α
  | [], _ => []
  | (k', es) :: rest, k => if k' = k then es else bucketAt rest k

/-- A numeric user id used as a property key is an array index when it is
below `2^32 - 1`. -/
def userIdIndex (n : Nat) : Option Nat :=
  if n < 4294967295 then some n else none

/-- A numeric user id used as a property key is a decimal numeral, which is not the name
of an inherited property. -/
def userIdInherited (_ : Nat) : Bool := false

/-- Value of a string of decimal digits. -/
def digitsValue (cs : List Char) : Nat :=
  cs.foldl (fun acc c => 10 * acc + (c.toNat - 48)) 0

/-- A group name used as a property key is an array index when it is a
canonical decimal numeral (no leading zero) below `2^32 - 1`. -/
def groupIndex (s : String) : Option Nat :=
  if s.data ≠ [] ∧ s.data.all Char.isDigit = true ∧ (s.data = ['0'] ∨ s.data.head? ≠ some '0')
      ∧ digitsValue s.data < 4294967295 then
    some (digitsValue s.data)
  else none

/-- A group name used as a property key meets an inherited property when it is the name
of a property of `Object.prototype`. -/
def groupInherited (s : String) : Bool := decide (s ∈ objectPrototypeKeys)

/-! ## Records -/

/-- A date value as a record stores it: the raw text, and the time value of
`new Date(text)` in milliseconds. -/
structure Stamp where
  text : String
  time : Int
deriving DecidableEq, Repr

/-- A timeline item, as built by `prepareTimelineData`. -/
structure Event where
  id : Nat
  content : Option String
  userId : Nat
  start : Stamp
  end_ : Stamp
  group : String
  title : Option String
  className : Option String
deriving DecidableEq, Repr

/-- An entry of the owner directory, or the object `getUser` returns. -/
structure UserEntry where
  id : Option Nat
  name : Option String
  className : Option String
deriving DecidableEq, Repr

/-- The directory of `src/utils/enums.js`. -/
def userEnums : List UserEntry :=
  [ { id := some 23, name := some "Jack A", className := some "green" },
    { id := some 24, name := some "John M", className := some "light-blue" },
    { id := some 27, name := some "Richard M", className := some "light-orange" } ]

/-- JavaScript truthiness of a possibly absent string. -/
def truthy : Option String → Bool
  | none => false
  | some s => s != ""

/-- The function `getUser(userEnums, id)`. -/
def getUser (userEnums : List UserEntry) (id : Nat) : UserEntry :=
  match userEnums.find? (fun item => item.id == some id) with
  | some userData =>
    if truthy userData.name then userData
    else { id := none, name := some "Mock", className := some "red" }
  | none => { id := none, name := some "Mock", className := some "red" }

/-! ## mergeEvents -/

/-- The call `userEvents.sort((a, b) => new Date(a.start) - new Date(b.start))`. -/
def sortByStart (userEvents : List Event) : List Event :=
  List.insertionSort (fun a b => a.start.time ≤ b.start.time) userEvents

/-- The `for (let i = 1; ...)` loop of `mergeEvents` over the remaining
elements `userEvents[i..]`, with the loop state `current`, `result`,
`overridenId`. -/
def forLoop (isOverridenProcess : Bool) :
    List Event → Event → List Event → Nat → Event × List Event × Nat
  | [], current, result, overridenId => (current, result, overridenId)
  | next :: rest, current, result, overridenId =>
    if isOverridenProcess then
      if current.end_.time > next.start.time then
        forLoop isOverridenProcess rest next
          (result ++ [{ current with start := next.start, id := overridenId }])
          (overridenId + 1)
      else
        forLoop isOverridenProcess rest next result overridenId
    else
      if next.start.time ≤ current.end_.time then
        forLoop isOverridenProcess rest
          { current with
            end_ := if current.end_.time > next.end_.time then current.end_ else next.end_ }
          result overridenId
      else
        forLoop isOverridenProcess rest next (result ++ [current]) overridenId

/-- The body of `Object.keys(groupedByClass).forEach(...)` for one bucket:
sort, scan, final push, `merged.push(...result)`. The state is `merged` and
`overridenId`. A bucket is never empty (a key exists only once an event was
pushed under it), so the first branch is not reached. -/
def processGroup (isOverridenProcess : Bool) (bucket : List Event)
    (st : List Event × Nat) : List Event × Nat :=
  match sortByStart bucket with
  | [] => st
  | first :: rest =>
    match forLoop isOverridenProcess rest first [] st.2 with
    | (current, result, overridenId) =>
      if isOverridenProcess then
        (st.1 ++ (result ++ [{ current with id := overridenId }]), overridenId + 1)
      else
        (st.1 ++ (result ++ [current]), overridenId)

/-- The body of `Object.keys(groupedByUserId).forEach(...)` for one user; `none` when
the grouping by `group` raises, which happens before anything is pushed to `merged`. -/
def processUser (isOverridenProcess : Bool) (groupEvents : List Event)
    (st : List Event × Nat) : Option (List Event × Nat) :=
  match groupInto groupInherited (fun event => event.group) groupEvents with
  | none => none
  | some groupedByClass =>
    some ((objectKeys groupIndex groupedByClass).foldl
      (fun st grpClass =>
        processGroup isOverridenProcess (bucketAt groupedByClass grpClass) st) st)

/-- The loop `Object.keys(groupedByUserId).forEach(...)` inside the `try`: the users are
processed in order; when one raises, the `catch` block logs and the function returns
`merged` as the users before left it. -/
def forEachUser (isOverridenProcess : Bool) (groupedByUserId : Buckets Nat Event) :
    List Nat → List Event × Nat → List Event
  | [], st => st.1
  | userId :: userIds, st =>
    match processUser isOverridenProcess (bucketAt groupedByUserId userId) st with
    | none => st.1
    | some st' => forEachUser isOverridenProcess groupedByUserId userIds st'

/-- The function `mergeEvents(events, isOverridenProcess)`; `now` is the value of
`Date.now()` that seeds `overridenId`. -/
def mergeEvents (events : List Event) (isOverridenProcess : Bool) (now : Nat) : List Event :=
  match groupInto userIdInherited (fun event => event.userId) events with
  | none => []
  | some groupedByUserId =>
    forEachUser isOverridenProcess groupedByUserId
      (objectKeys userIdIndex groupedByUserId) ([], now)

/-! ## prepareTimelineData -/

/-- One schedule entry `{userId, startDate, endDate}`. -/
structure Entry where
  userId : Nat
  startDate : Stamp
  endDate : Stamp
deriving DecidableEq, Repr

/-- One base layer `{number, layers}`; the number is a non-negative safe integer, which
a template literal prints as its decimal digits. -/
structure Layer where
  number : Fin 9007199254740992
  layers : List Entry
deriving DecidableEq, Repr

/-- The schedule source `{layers, finalSchedule}`. -/
structure ScheduleData where
  layers : List Layer
  finalSchedule : List Entry
deriving DecidableEq, Repr

/-- A group descriptor `{id, content}`. -/
structure Group where
  id : String
  content : String
deriving DecidableEq, Repr

/-- The item pushed for `entry` under the group `groupName` with identifier `id`. -/
def makeItem (id : Nat) (groupName : String) (entry : Entry) : Event :=
  let user := getUser userEnums entry.userId
  { id := id, content := user.name, userId := entry.userId, start := entry.startDate,
    end_ := entry.endDate, group := groupName, title := user.name,
    className := user.className }

/-- The loop `entries.forEach((entry) => { items.push({id: id++, ...}) })`; the state is
`items` and the counter `id`. -/
def pushEntries (groupName : String) (entries : List Entry) (st : List Event × Nat) :
    List Event × Nat :=
  entries.foldl (fun st entry => (st.1 ++ [makeItem st.2 groupName entry], st.2 + 1)) st

/-- State of `prepareTimelineData` while the base layers are read. -/
structure Assembly where
  items : List Event
  groups : List Group
  id : Nat
deriving DecidableEq, Repr

/-- The loop `data.layers.forEach((layer) => { ... })`. -/
def addLayers (layers : List Layer) (st : Assembly) : Assembly :=
  layers.foldl
    (fun st layer =>
      let groupName := "Layer " ++ toString layer.number.val
      let r := pushEntries groupName layer.layers (st.items, st.id)
      { items := r.1, groups := st.groups ++ [{ id := groupName, content := groupName }],
        id := r.2 })
    st

/-- The value `overridenData` of `prepareTimelineData`: the override pass over the base items. -/
def overridenData (data : ScheduleData) (now : Nat) : List Event :=
  mergeEvents (addLayers data.layers { items := [], groups := [], id := 1 }).items true now

/-- Modelled from the spec: the renderer and its `DataSet` container are an external
collaborator (sections 1 and 6) whose source is not in the repository. The call
`dataset.add(records)` stores the records one by one after those it holds, and raises
(`none`) at a record whose id it already holds, as the library does. -/
def dataSetAdd {α ι : Type} [DecidableEq ι] (idOf : α → ι) : List α → List α → Option (List α)
  | held, [] => some held
  | held, x :: xs =>
    if idOf x ∈ held.map idOf then none else dataSetAdd idOf (held ++ [x]) xs

/-- The object `{ itemsDataset, groupsDataset }` that `prepareTimelineData` returns. -/
structure TimelineData where
  items : List Event
  groups : List Group
deriving DecidableEq, Repr

/-- The function `prepareTimelineData(data)`; `now` and `now2` are the values of
`Date.now()` in its two calls of `mergeEvents`; `none` when one of the two calls of
`add` raises. -/
def prepareTimelineData (data : ScheduleData) (now now2 : Nat) : Option TimelineData :=
  let st := addLayers data.layers { items := [], groups := [], id := 1 }
  let groups := st.groups ++ [{ id := "override Layer", content := "Override Layer" }]
  let items := st.items ++ mergeEvents st.items true now
  let groups := groups ++ [{ id := "Final Schedule", content := "Final Schedule" }]
  let r := pushEntries "Final Schedule" data.finalSchedule (items, st.id)
  let mergedItems := mergeEvents r.1 false now2
  match dataSetAdd (fun (item : Event) => item.id) [] mergedItems with
  | none => none
  | some itemsDataset =>
    match dataSetAdd (fun (group : Group) => group.id) [] groups with
    | none => none
    | some groupsDataset => some { items := itemsDataset, groups := groupsDataset }

/-! ## Auxiliary definitions used by the proofs -/

/-- The reducer body on a dictionary without inherited properties. -/
def pushPlain {κ α : Type} [DecidableEq κ] : Buckets κ α → κ → α → Buckets κ α
  | [], k, e => [(k, [e])]
  | (k', es) :: rest, k, e =>
    if k' = k then (k', es ++ [e]) :: rest else (k', es) :: pushPlain rest k e

/-- The grouping on a dictionary without inherited properties. -/
def groupPlain {κ α : Type} [DecidableEq κ] (key : α → κ) (xs : List α) : Buckets κ α :=
  xs.foldl (fun acc x => pushPlain acc (key x) x) []

/-- Own keys of the grouping of `xs`, in insertion order. -/
def keysOf {κ α : Type} [DecidableEq κ] (key : α → κ) (xs : List α) : List κ :=
  (groupPlain key xs).map Prod.fst

/-- The key order of `Object.keys` on a list of own keys. -/
def orderKeys {κ : Type} (index : κ → Option Nat) (ks : List κ) : List κ :=
  List.insertionSort (fun a b => (index a).getD 0 ≤ (index b).getD 0)
      (ks.filter (fun k => (index k).isSome))
    ++ ks.filter (fun k => (index k).isNone)

/-- What one bucket contributes in merge mode, as a function of the sorted
bucket `current :: rest`: the loop's `result` followed by the last `current`. -/
def mergeRun : Event → List Event → List Event
  | current, [] => [current]
  | current, next :: rest =>
    if next.start.time ≤ current.end_.time then
      mergeRun
        { current with
          end_ := if current.end_.time > next.end_.time then current.end_ else next.end_ }
        rest
    else current :: mergeRun next rest

/-- The merge scan of a bucket that is already sorted. -/
def mergeSorted : List Event → List Event
  | [] => []
  | first :: rest => mergeRun first rest

/-- What one bucket contributes in merge mode. -/
def mergeBucket (bucket : List Event) : List Event :=
  mergeSorted (sortByStart bucket)

/-- What one user contributes in merge mode, when the grouping by `group` does not raise. -/
def mergeUser (groupEvents : List Event) : List Event :=
  (orderKeys groupIndex (keysOf (fun event => event.group) groupEvents)).flatMap
    (fun g => mergeBucket (groupEvents.filter (fun e => decide (e.group = g))))

/-- No record of the list has a group named like an inherited property. -/
def groupsOk (groupEvents : List Event) : Bool :=
  !groupEvents.any (fun e => groupInherited e.group)

/-- The users `mergeEvents` gets through: those ahead of the first one whose grouping
by `group` raises. -/
def safeUsers (events : List Event) : List Nat :=
  (orderKeys userIdIndex (keysOf (fun event => event.userId) events)).takeWhile
    (fun u => groupsOk (events.filter (fun e => decide (e.userId = u))))

/-- Scenario A, first interval: 09:00-10:00. -/
def scenarioA1 : Event :=
  { id := 1, content := some "Jack A", userId := 23,
    start := { text := "2024-01-01T09:00:00.000Z", time := 1704099600000 },
    end_ := { text := "2024-01-01T10:00:00.000Z", time := 1704103200000 },
    group := "Layer 1", title := some "Jack A", className := some "green" }

/-- Scenario A, second interval: 09:30-11:00. -/
def scenarioA2 : Event :=
  { id := 2, content := some "Jack A", userId := 23,
    start := { text := "2024-01-01T09:30:00.000Z", time := 1704101400000 },
    end_ := { text := "2024-01-01T11:00:00.000Z", time := 1704106800000 },
    group := "Layer 1", title := some "Jack A", className := some "green" }

/-- A record of another owner whose group is named `constructor`, 09:00-10:00. -/
def constructorEvent : Event :=
  { id := 2, content := some "John M", userId := 24,
    start := { text := "2024-01-01T09:00:00.000Z", time := 1704099600000 },
    end_ := { text := "2024-01-01T10:00:00.000Z", time := 1704103200000 },
    group := "constructor", title := some "John M", className := some "light-blue" }

/-- Scenario B, base interval: 09:00-17:00. -/
def scenarioB1 : Event :=
  { id := 1, content := some "Jack A", userId := 23,
    start := { text := "2024-01-01T09:00:00.000Z", time := 1704099600000 },
    end_ := { text := "2024-01-01T17:00:00.000Z", time := 1704128400000 },
    group := "Layer 1", title := some "Jack A", className := some "green" }

/-- Scenario B, overriding interval: 12:00-13:00, same owner and group. -/
def scenarioB2 : Event :=
  { id := 2, content := some "Jack A", userId := 23,
    start := { text := "2024-01-01T12:00:00.000Z", time := 1704110400000 },
    end_ := { text := "2024-01-01T13:00:00.000Z", time := 1704114000000 },
    group := "Layer 1", title := some "Jack A", className := some "green" }

/-- Two intervals of one owner and group that do not overlap: 09:00-10:00. -/
def disjoint1 : Event :=
  { id := 1, content := some "Jack A", userId := 23,
    start := { text := "2024-01-01T09:00:00.000Z", time := 1704099600000 },
    end_ := { text := "2024-01-01T10:00:00.000Z", time := 1704103200000 },
    group := "Layer 1", title := some "Jack A", className := some "green" }

/-- Two intervals of one owner and group that do not overlap: 11:00-12:00. -/
def disjoint2 : Event :=
  { id := 2, content := some "Jack A", userId := 23,
    start := { text := "2024-01-01T11:00:00.000Z", time := 1704106800000 },
    end_ := { text := "2024-01-01T12:00:00.000Z", time := 1704110400000 },
    group := "Layer 1", title := some "Jack A", className := some "green" }

/-- A single record whose group is named `__proto__`. -/
def protoEvent : Event :=
  { id := 1, content := some "Jack A", userId := 23,
    start := { text := "2024-01-01T09:00:00.000Z", time := 1704099600000 },
    end_ := { text := "2024-01-01T10:00:00.000Z", time := 1704103200000 },
    group := "__proto__", title := some "Jack A", className := some "green" }

/-- The records of `merged` carry the identifiers `seed, seed + 1, ...` in order and the
counter `overridenId` is the next one to mint. -/
def Minted (seed : Nat) (merged : List Event) (overridenId : Nat) : Prop :=
  merged.map (fun e => e.id) = List.range' seed merged.length ∧ overridenId = seed + merged.length

/-- A record with its `end` replaced by the bare instant: the raw text is forgotten. -/
def normEnd (e : Event) : Event :=
  { e with end_ := { text := "", time := e.end_.time } }

/-- First of three records of one owner and group: 09:00-10:00, the end written with
milliseconds. -/
def tie1 : Event :=
  { id := 1, content := some "Jack A", userId := 23,
    start := { text := "2024-01-01T09:00:00.000Z", time := 1704099600000 },
    end_ := { text := "2024-01-01T10:00:00.000Z", time := 1704103200000 },
    group := "Layer 1", title := some "Jack A", className := some "green" }

/-- Second record: 09:30-10:00, the same end instant written without milliseconds. -/
def tie2 : Event :=
  { id := 2, content := some "Jack A", userId := 23,
    start := { text := "2024-01-01T09:30:00.000Z", time := 1704101400000 },
    end_ := { text := "2024-01-01T10:00:00Z", time := 1704103200000 },
    group := "Layer 1", title := some "Jack A", className := some "green" }

/-- Third record: 11:00-12:00, apart from the first two. -/
def tie3 : Event :=
  { id := 3, content := some "Jack A", userId := 23,
    start := { text := "2024-01-01T11:00:00.000Z", time := 1704106800000 },
    end_ := { text := "2024-01-01T12:00:00.000Z", time := 1704110400000 },
    group := "Layer 1", title := some "Jack A", className := some "green" }

/-- Record `a` dominates record `o`: `o` starts inside `a`, not before it, and
ends no later. -/
def Dominates (a o : Event) : Prop :=
  a.start.time ≤ o.start.time ∧ o.start.time ≤ a.end_.time ∧ o.end_.time ≤ a.end_.time

/-- In a list of records, each marked `true` when it comes from the override pass, every
marked record is dominated by a record of `pool` or by an unmarked record before it. -/
def Covered : List Event → List (Event × Bool) → Prop
  | _, [] => True
  | pool, (o, true) :: rest => (∃ a ∈ pool, Dominates a o) ∧ Covered pool rest
  | pool, (n, false) :: rest => Covered (n :: pool) rest

/-- The stable sort by `start`, on marked records. -/
def sortMarked (l : List (Event × Bool)) : List (Event × Bool) :=
  List.insertionSort (fun a b => a.1.start.time ≤ b.1.start.time) l

/-- Record `o` has the owner, the group and the `end` of a record of `items` that
dominates it. -/
def Anchored (items : List Event) (o : Event) : Prop :=
  ∃ a ∈ items, a.userId = o.userId ∧ a.group = o.group ∧ o.end_ = a.end_ ∧ Dominates a o

/-- The number of schedule entries of a dataset: the identifiers `prepareTimelineData`
hands out from its counter are `1, ..., entryCount data`. -/
def entryCount (data : ScheduleData) : Nat :=
  (data.layers.map (fun layer => layer.layers.length)).sum + data.finalSchedule.length

/-- A schedule with one base layer holding one entry, and no final schedule. -/
def oneEntrySchedule : ScheduleData :=
  { layers :=
      [{ number := 1,
         layers :=
           [{ userId := 23,
              startDate := { text := "2024-01-01T09:00:00.000Z", time := 1704099600000 },
              endDate := { text := "2024-01-01T10:00:00.000Z", time := 1704103200000 } }] }],
    finalSchedule := [] }

/-- A schedule whose layers are numbered 2, 1, 2, with no entry. -/
def repeatedLayerSchedule : ScheduleData :=
  { layers := [{ number := 2, layers := [] }, { number := 1, layers := [] },
               { number := 2, layers := [] }],
    finalSchedule := [] }

/-! ## Order instances -/

instance indexOrder_total {κ : Type} (index : κ → Option Nat) :
    IsTotal κ (fun a b => (index a).getD 0 ≤ (index b).getD 0) :=
  ⟨fun _ _ => Nat.le_total _ _⟩

instance indexOrder_trans {κ : Type} (index : κ → Option Nat) :
    IsTrans κ (fun a b => (index a).getD 0 ≤ (index b).getD 0) :=
  ⟨fun _ _ _ h1 h2 => Nat.le_trans h1 h2⟩

instance startOrder_total : IsTotal Event (fun a b => a.start.time ≤ b.start.time) :=
  ⟨fun _ _ => Int.le_total _ _⟩

instance startOrder_trans : IsTrans Event (fun a b => a.start.time ≤ b.start.time) :=
  ⟨fun _ _ _ h1 h2 => Int.le_trans h1 h2⟩

instance markedOrder_total :
    IsTotal (Event × Bool) (fun a b => a.1.start.time ≤ b.1.start.time) :=
  ⟨fun _ _ => Int.le_total _ _⟩

instance markedOrder_trans :
    IsTrans (Event × Bool) (fun a b => a.1.start.time ≤ b.1.start.time) :=
  ⟨fun _ _ _ h1 h2 => Int.le_trans h1 h2⟩

/-! # Proofs -/

/-! ## Dictionary objects: keys and buckets -/

theorem objectKeys_groupPlain {κ α : Type} [DecidableEq κ] (index : κ → Option Nat)
    (key : α → κ) (xs : List α) :
    objectKeys index (groupPlain key xs) = orderKeys index (keysOf key xs) := rfl

theorem keys_pushPlain {κ α : Type} [DecidableEq κ] (acc : Buckets κ α) (k : κ) (e : α) :
    (pushPlain acc k e).map Prod.fst =
      if k ∈ acc.map Prod.fst then acc.map Prod.fst else acc.map Prod.fst ++ [k] := by
  induction acc with
  | nil => simp [pushPlain]
  | cons p rest ih =>
    obtain ⟨k', es⟩ := p
    by_cases h : k' = k
    · simp [pushPlain, h]
    · have h' : ¬ k = k' := fun e => h e.symm
      simp only [pushPlain, h, if_false, List.map_cons, ih, List.mem_cons, h', false_or]
      split <;> simp

theorem bucketAt_pushPlain {κ α : Type} [DecidableEq κ] (acc : Buckets κ α) (k k' : κ) (e : α) :
    bucketAt (pushPlain acc k e) k' =
      if k = k' then bucketAt acc k' ++ [e] else bucketAt acc k' := by
  induction acc with
  | nil =>
    by_cases h : k = k' <;> simp [pushPlain, bucketAt, h]
  | cons p rest ih =>
    obtain ⟨k0, es⟩ := p
    by_cases h0 : k0 = k
    · subst h0
      by_cases h : k0 = k' <;> simp [pushPlain, bucketAt, h]
    · by_cases h1 : k0 = k'
      · subst h1
        have : ¬ k = k0 := fun e => h0 e.symm
        simp [pushPlain, bucketAt, h0, this]
      · simp [pushPlain, bucketAt, h0, h1, ih]

theorem groupPlain_concat {κ α : Type} [DecidableEq κ] (key : α → κ) (xs : List α) (x : α) :
    groupPlain key (xs ++ [x]) = pushPlain (groupPlain key xs) (key x) x := by
  simp [groupPlain, List.foldl_append]

theorem keysOf_nil {κ α : Type} [DecidableEq κ] (key : α → κ) :
    keysOf key ([] : List α) = [] := rfl

theorem keysOf_concat {κ α : Type} [DecidableEq κ] (key : α → κ) (xs : List α) (x : α) :
    keysOf key (xs ++ [x]) =
      if key x ∈ keysOf key xs then keysOf key xs else keysOf key xs ++ [key x] := by
  unfold keysOf
  rw [groupPlain_concat, keys_pushPlain]

theorem bucketAt_groupPlain {κ α : Type} [DecidableEq κ] (key : α → κ) (xs : List α) (k : κ) :
    bucketAt (groupPlain key xs) k = xs.filter (fun x => decide (key x = k)) := by
  induction xs using List.reverseRecOn with
  | nil => rfl
  | append_singleton xs x ih =>
    rw [groupPlain_concat, bucketAt_pushPlain, ih, List.filter_append]
    by_cases h : key x = k <;> simp [h]

theorem mem_keysOf {κ α : Type} [DecidableEq κ] (key : α → κ) (xs : List α) (k : κ) :
    k ∈ keysOf key xs ↔ ∃ x ∈ xs, key x = k := by
  revert k
  induction xs using List.reverseRecOn with
  | nil => intro k; simp [keysOf_nil]
  | append_singleton xs x ih =>
    intro k
    rw [keysOf_concat]
    split
    · rename_i h
      rw [ih]
      constructor
      · rintro ⟨y, hy, hk⟩
        exact ⟨y, by simp [hy], hk⟩
      · rintro ⟨y, hy, hk⟩
        rcases List.mem_append.1 hy with hy | hy
        · exact ⟨y, hy, hk⟩
        · have hyx : y = x := by simpa using hy
          rw [hyx] at hk
          rw [← hk]
          exact (ih _).1 h
    · rw [List.mem_append, ih]
      constructor
      · rintro (⟨y, hy, hk⟩ | h)
        · exact ⟨y, by simp [hy], hk⟩
        · exact ⟨x, by simp, (by simpa using h : k = key x).symm⟩
      · rintro ⟨y, hy, hk⟩
        rcases List.mem_append.1 hy with hy | hy
        · exact Or.inl ⟨y, hy, hk⟩
        · have hyx : y = x := by simpa using hy
          rw [hyx] at hk
          exact Or.inr (by simp [hk])

theorem nodup_keysOf {κ α : Type} [DecidableEq κ] (key : α → κ) (xs : List α) :
    (keysOf key xs).Nodup := by
  induction xs using List.reverseRecOn with
  | nil => simp [keysOf_nil]
  | append_singleton xs x ih =>
    rw [keysOf_concat]
    split
    · exact ih
    · rename_i h
      rw [List.nodup_append]
      refine ⟨ih, by simp, ?_⟩
      intro a ha hb
      have : a = key x := by simpa using hb
      exact h (this ▸ ha)

theorem keysOf_append {κ α : Type} [DecidableEq κ] (key : α → κ) (xs ys : List α) :
    keysOf key (xs ++ ys) =
      keysOf key xs ++ (keysOf key ys).filter (fun k => decide (k ∉ keysOf key xs)) := by
  induction ys using List.reverseRecOn with
  | nil => simp [keysOf_nil]
  | append_singleton ys y ih =>
    rw [← List.append_assoc, keysOf_concat, keysOf_concat, ih]
    by_cases h1 : key y ∈ keysOf key xs
    · by_cases h2 : key y ∈ keysOf key ys
      · simp [h1, h2]
      · simp [h1, h2, List.filter_append]
    · by_cases h2 : key y ∈ keysOf key ys
      · simp [h1, h2]
      · simp [h1, h2, List.filter_append]

/-! ## Key order -/

theorem perm_orderKeys {κ : Type} (index : κ → Option Nat) (ks : List κ) :
    (orderKeys index ks).Perm ks := by
  unfold orderKeys
  have h : (fun k => (index k).isNone) = fun k => !(index k).isSome := by
    funext k; cases index k <;> rfl
  rw [h]
  exact ((List.perm_insertionSort _ _).append_right _).trans (List.filter_append_perm _ ks)

theorem mem_orderKeys {κ : Type} (index : κ → Option Nat) (ks : List κ) (k : κ) :
    k ∈ orderKeys index ks ↔ k ∈ ks :=
  (perm_orderKeys index ks).mem_iff

theorem nodup_orderKeys {κ : Type} (index : κ → Option Nat) (ks : List κ) (h : ks.Nodup) :
    (orderKeys index ks).Nodup :=
  (perm_orderKeys index ks).nodup_iff.2 h

theorem orderKeys_idem {κ : Type} (index : κ → Option Nat) (ks : List κ) :
    orderKeys index (orderKeys index ks) = orderKeys index ks := by
  have hS : ∀ k ∈ List.insertionSort (fun a b => (index a).getD 0 ≤ (index b).getD 0)
      (ks.filter (fun k => (index k).isSome)), (index k).isSome = true := by
    intro k hk
    have := (List.mem_insertionSort _).1 hk
    exact (List.mem_filter.1 this).2
  have hN : ∀ k ∈ ks.filter (fun k => (index k).isNone), (index k).isNone = true := by
    intro k hk
    exact (List.mem_filter.1 hk).2
  have e1 : (orderKeys index ks).filter (fun k => (index k).isSome)
      = List.insertionSort (fun a b => (index a).getD 0 ≤ (index b).getD 0)
          (ks.filter (fun k => (index k).isSome)) := by
    have hz : (ks.filter (fun k => (index k).isNone)).filter (fun k => (index k).isSome) = [] := by
      rw [List.filter_eq_nil_iff]
      intro k hk
      have := hN k hk
      cases h : index k <;> simp_all
    unfold orderKeys
    rw [List.filter_append, List.filter_eq_self.2 hS, hz, List.append_nil]
  have e2 : (orderKeys index ks).filter (fun k => (index k).isNone)
      = ks.filter (fun k => (index k).isNone) := by
    have hz : (List.insertionSort (fun a b => (index a).getD 0 ≤ (index b).getD 0)
        (ks.filter (fun k => (index k).isSome))).filter (fun k => (index k).isNone) = [] := by
      rw [List.filter_eq_nil_iff]
      intro k hk
      have := hS k hk
      cases h : index k <;> simp_all
    unfold orderKeys
    rw [List.filter_append, List.filter_eq_self.2 hN, hz, List.nil_append]
  show List.insertionSort _ ((orderKeys index ks).filter _) ++ (orderKeys index ks).filter _ = _
  rw [e1, e2, (List.sorted_insertionSort _ _).insertionSort_eq]
  rfl

/-! ## The reducer with inherited properties -/

theorem pushInto_plain {κ α : Type} [DecidableEq κ] (inherited : κ → Bool)
    (acc : Buckets κ α) (k : κ) (e : α) (hk : inherited k = false) :
    pushInto inherited acc k e = some (pushPlain acc k e) := by
  induction acc with
  | nil => simp [pushInto, pushPlain, hk]
  | cons p rest ih =>
    obtain ⟨k', es⟩ := p
    by_cases h : k' = k
    · simp [pushInto, pushPlain, h]
    · simp [pushInto, pushPlain, h, ih]

theorem pushInto_raises {κ α : Type} [DecidableEq κ] (inherited : κ → Bool)
    (acc : Buckets κ α) (k : κ) (e : α) (hk : inherited k = true)
    (hfresh : k ∉ acc.map Prod.fst) : pushInto inherited acc k e = none := by
  induction acc with
  | nil => simp [pushInto, hk]
  | cons p rest ih =>
    obtain ⟨k', es⟩ := p
    have h : ¬ k' = k := fun e' => hfresh (by simp [e'])
    have hrest : k ∉ rest.map Prod.fst := fun hm => hfresh (by simp at hm ⊢; exact Or.inr hm)
    simp [pushInto, h, ih hrest]

theorem groupInto_concat {κ α : Type} [DecidableEq κ] (inherited : κ → Bool) (key : α → κ)
    (xs : List α) (x : α) :
    groupInto inherited key (xs ++ [x])
      = (groupInto inherited key xs).bind (fun o => pushInto inherited o (key x) x) := by
  simp [groupInto, List.foldl_append]

theorem groupInto_eq {κ α : Type} [DecidableEq κ] (inherited : κ → Bool) (key : α → κ)
    (xs : List α) :
    groupInto inherited key xs
      = if xs.any (fun x => inherited (key x)) then none else some (groupPlain key xs) := by
  induction xs using List.reverseRecOn with
  | nil => rfl
  | append_singleton xs x ih =>
    rw [groupInto_concat, ih, groupPlain_concat]
    by_cases hany : xs.any (fun x => inherited (key x)) = true
    · simp [hany]
    · have hall : ∀ y ∈ xs, inherited (key y) = false := by
        intro y hy
        by_contra hc
        exact hany (List.any_eq_true.2 ⟨y, hy, by simpa using hc⟩)
      by_cases hx : inherited (key x) = true
      · have hfresh : key x ∉ (groupPlain key xs).map Prod.fst := by
          intro hm
          obtain ⟨y, hy, hk⟩ := (mem_keysOf key xs (key x)).1 hm
          have := hall y hy
          rw [hk, hx] at this
          exact Bool.noConfusion this
        simp [hany, hx, pushInto_raises inherited _ _ _ hx hfresh]
      · have hx' : inherited (key x) = false := by simpa using hx
        simp [hany, hx', pushInto_plain inherited _ _ _ hx']

theorem groupInto_userId (events : List Event) :
    groupInto userIdInherited (fun event : Event => event.userId) events
      = some (groupPlain (fun event : Event => event.userId) events) := by
  rw [groupInto_eq]
  simp [userIdInherited]

theorem groupInto_group (groupEvents : List Event) :
    groupInto groupInherited (fun event : Event => event.group) groupEvents
      = if groupsOk groupEvents then some (groupPlain (fun event : Event => event.group) groupEvents)
        else none := by
  rw [groupInto_eq]
  unfold groupsOk
  cases groupEvents.any (fun e => groupInherited e.group) <;> rfl
theorem orderKeys_split {κ : Type} (index : κ → Option Nat) (A B : List κ)
    (hA : ∀ a ∈ A, (index a).isSome = true)
    (hs : A.Sorted (fun a b => (index a).getD 0 ≤ (index b).getD 0))
    (hB : ∀ b ∈ B, (index b).isNone = true) : orderKeys index (A ++ B) = A ++ B := by
  have e1 : (A ++ B).filter (fun k => (index k).isSome) = A := by
    have hz : B.filter (fun k => (index k).isSome) = [] := by
      rw [List.filter_eq_nil_iff]
      intro k hk
      have := hB k hk
      cases h : index k <;> simp_all
    rw [List.filter_append, List.filter_eq_self.2 hA, hz, List.append_nil]
  have e2 : (A ++ B).filter (fun k => (index k).isNone) = B := by
    have hz : A.filter (fun k => (index k).isNone) = [] := by
      rw [List.filter_eq_nil_iff]
      intro k hk
      have := hA k hk
      cases h : index k <;> simp_all
    rw [List.filter_append, List.filter_eq_self.2 hB, hz, List.nil_append]
  show List.insertionSort _ ((A ++ B).filter _) ++ (A ++ B).filter _ = _
  rw [e1, e2, hs.insertionSort_eq]

theorem orderKeys_sublist {κ : Type} (index : κ → Option Nat) (ks l : List κ)
    (hl : List.Sublist l (orderKeys index ks)) : orderKeys index l = l := by
  obtain ⟨l1, l2, rfl, h1, h2⟩ := List.sublist_append_iff.1 hl
  apply orderKeys_split
  · intro a ha
    have := (List.mem_insertionSort _).1 (h1.subset ha)
    exact (List.mem_filter.1 this).2
  · exact (List.sorted_insertionSort _ _).sublist h1
  · intro b hb
    exact (List.mem_filter.1 (h2.subset hb)).2

/-! ## The scan in merge mode -/

theorem forLoop_merge (rest : List Event) (current : Event) (result : List Event) (n : Nat) :
    (forLoop false rest current result n).2.1 ++ [(forLoop false rest current result n).1]
        = result ++ mergeRun current rest
      ∧ (forLoop false rest current result n).2.2 = n := by
  induction rest generalizing current result with
  | nil => simp [forLoop, mergeRun]
  | cons next rest ih =>
    by_cases h : next.start.time ≤ current.end_.time
    · simp only [forLoop, mergeRun, h, if_true, Bool.false_eq_true, if_false]
      exact ih _ _
    · simp only [forLoop, mergeRun, h, if_false, Bool.false_eq_true]
      have := ih next (result ++ [current])
      simpa using this

theorem processGroup_merge (bucket : List Event) (st : List Event × Nat) :
    processGroup false bucket st = (st.1 ++ mergeBucket bucket, st.2) := by
  unfold processGroup mergeBucket
  cases hs : sortByStart bucket with
  | nil => simp [mergeSorted]
  | cons first rest =>
    have h := forLoop_merge rest first [] st.2
    simp only [Bool.false_eq_true, if_false, mergeSorted]
    rw [h.1, h.2]
    simp

theorem foldl_emit {κ : Type} (f : κ → List Event) (ks : List κ) (st : List Event × Nat) :
    ks.foldl (fun st k => (st.1 ++ f k, st.2)) st = (st.1 ++ ks.flatMap f, st.2) := by
  induction ks generalizing st with
  | nil => simp
  | cons k ks ih => simp [List.foldl_cons, ih, List.flatMap_cons]

theorem processUser_merge (groupEvents : List Event) (st : List Event × Nat) :
    processUser false groupEvents st
      = if groupsOk groupEvents then some (st.1 ++ mergeUser groupEvents, st.2) else none := by
  unfold processUser
  rw [groupInto_group]
  by_cases hok : groupsOk groupEvents = true
  · simp only [hok, if_true, processGroup_merge, bucketAt_groupPlain, objectKeys_groupPlain]
    rw [foldl_emit]
    rfl
  · simp [hok]

theorem forEachUser_merge (events : List Event) (userIds : List Nat) (st : List Event × Nat) :
    forEachUser false (groupPlain (fun event : Event => event.userId) events) userIds st
      = st.1 ++ (userIds.takeWhile
            (fun u => groupsOk (events.filter (fun e => decide (e.userId = u))))).flatMap
          (fun u => mergeUser (events.filter (fun e => decide (e.userId = u)))) := by
  induction userIds generalizing st with
  | nil => simp [forEachUser]
  | cons u us ih =>
    rw [forEachUser, processUser_merge, bucketAt_groupPlain]
    by_cases hok : groupsOk (events.filter (fun e => decide (e.userId = u))) = true
    · simp only [hok, if_true]
      rw [ih]
      simp [List.takeWhile_cons, hok, List.flatMap_cons, List.append_assoc]
    · have hf : groupsOk (events.filter (fun e => decide (e.userId = u))) = false := by
        simpa using hok
      simp [List.takeWhile_cons, hf]

theorem mergeEvents_merge (events : List Event) (now : Nat) :
    mergeEvents events false now =
      (safeUsers events).flatMap
        (fun u => mergeUser (events.filter (fun e => decide (e.userId = u)))) := by
  unfold mergeEvents safeUsers
  rw [groupInto_userId]
  simp only
  rw [forEachUser_merge, objectKeys_groupPlain]
  simp

/-! ## One bucket in merge mode -/

theorem sorted_sortByStart (l : List Event) :
    (sortByStart l).Sorted (fun a b => a.start.time ≤ b.start.time) :=
  List.sorted_insertionSort _ l

theorem perm_sortByStart (l : List Event) : (sortByStart l).Perm l :=
  List.perm_insertionSort _ l

theorem mem_sortByStart (l : List Event) (x : Event) : x ∈ sortByStart l ↔ x ∈ l :=
  (perm_sortByStart l).mem_iff

theorem mergeRun_ne_nil (current : Event) (rest : List Event) : mergeRun current rest ≠ [] := by
  induction rest generalizing current with
  | nil => simp [mergeRun]
  | cons next rest ih =>
    unfold mergeRun
    split
    · exact ih _
    · simp

theorem mem_mergeRun_origin (current : Event) (rest : List Event) (x : Event)
    (hx : x ∈ mergeRun current rest) :
    ∃ y ∈ current :: rest, x.id = y.id ∧ x.userId = y.userId ∧ x.group = y.group ∧ x.start = y.start := by
  induction rest generalizing current with
  | nil =>
    have : x = current := by simpa [mergeRun] using hx
    exact ⟨current, by simp, by simp [this]⟩
  | cons next rest ih =>
    unfold mergeRun at hx
    split at hx
    · obtain ⟨y, hy, h⟩ := ih _ hx
      rcases List.mem_cons.1 hy with hy | hy
      · refine ⟨current, by simp, ?_⟩
        subst hy
        simpa using h
      · exact ⟨y, by simp [hy], h⟩
    · rcases List.mem_cons.1 hx with hx | hx
      · exact ⟨current, by simp, by simp [hx]⟩
      · obtain ⟨y, hy, h⟩ := ih _ hx
        exact ⟨y, List.mem_cons_of_mem _ hy, h⟩

theorem mergeRun_separated (current : Event) (rest : List Event)
    (hs : (current :: rest).Sorted (fun a b => a.start.time ≤ b.start.time)) :
    (mergeRun current rest).Pairwise (fun x y => x.end_.time < y.start.time ∧ x.start.time ≤ y.start.time) := by
  induction rest generalizing current with
  | nil => simp [mergeRun]
  | cons next rest ih =>
    have hs' := List.sorted_cons.1 hs
    have hn := List.sorted_cons.1 hs'.2
    unfold mergeRun
    split
    · apply ih
      refine List.sorted_cons.2 ⟨?_, hn.2⟩
      intro b hb
      exact hs'.1 b (List.mem_cons_of_mem _ hb)
    · rename_i hlt
      refine List.pairwise_cons.2 ⟨?_, ih next hs'.2⟩
      intro y hy
      obtain ⟨z, hz, _, _, _, hst⟩ := mem_mergeRun_origin next rest y hy
      have h1 : next.start.time ≤ z.start.time := by
        rcases List.mem_cons.1 hz with hz | hz
        · rw [hz]
        · exact hn.1 z hz
      have h2 : current.start.time ≤ next.start.time := hs'.1 next (by simp)
      rw [hst]
      constructor <;> omega

theorem mergeRun_fixed (current : Event) (rest : List Event)
    (h : (current :: rest).Pairwise (fun x y => x.end_.time < y.start.time)) :
    mergeRun current rest = current :: rest := by
  induction rest generalizing current with
  | nil => simp [mergeRun]
  | cons next rest ih =>
    have h' := List.pairwise_cons.1 h
    have hlt : ¬ next.start.time ≤ current.end_.time := by
      have := h'.1 next (by simp)
      omega
    unfold mergeRun
    rw [if_neg hlt, ih next h'.2]

theorem mergeRun_cover (current : Event) (rest : List Event) (t : Int)
    (hs : (current :: rest).Sorted (fun a b => a.start.time ≤ b.start.time)) :
    (∃ r ∈ mergeRun current rest, r.start.time ≤ t ∧ t ≤ r.end_.time) ↔
      ∃ r ∈ current :: rest, r.start.time ≤ t ∧ t ≤ r.end_.time := by
  induction rest generalizing current with
  | nil => simp [mergeRun]
  | cons next rest ih =>
    have hs' := List.sorted_cons.1 hs
    have hn := List.sorted_cons.1 hs'.2
    have h2 : current.start.time ≤ next.start.time := hs'.1 next (by simp)
    unfold mergeRun
    split
    · rename_i hle
      have hsort : ({ current with
            end_ := if current.end_.time > next.end_.time then current.end_ else next.end_ } :: rest).Sorted
          (fun a b => a.start.time ≤ b.start.time) := by
        refine List.sorted_cons.2 ⟨?_, hn.2⟩
        intro b hb
        exact hs'.1 b (List.mem_cons_of_mem _ hb)
      rw [ih _ hsort]
      simp only [List.exists_mem_cons_iff] 
      constructor
      · rintro (⟨h1, h3⟩ | h)
        · by_cases hc : t ≤ current.end_.time
          · exact Or.inl ⟨h1, hc⟩
          · refine Or.inr (Or.inl ⟨by omega, ?_⟩)
            split at h3 <;> omega
        · exact Or.inr (Or.inr h)
      · rintro (⟨h1, h3⟩ | ⟨h1, h3⟩ | h)
        · refine Or.inl ⟨h1, ?_⟩
          split <;> omega
        · refine Or.inl ⟨by omega, ?_⟩
          split <;> omega
        · exact Or.inr h
    · rw [List.exists_mem_cons_iff, ih next hs'.2]
      simp only [List.exists_mem_cons_iff]

theorem mergeBucket_ne_nil (bucket : List Event) (h : bucket ≠ []) : mergeBucket bucket ≠ [] := by
  unfold mergeBucket
  cases hs : sortByStart bucket with
  | nil =>
    have := (perm_sortByStart bucket).length_eq
    rw [hs] at this
    exact absurd (List.length_eq_zero.1 this.symm) h
  | cons first rest => exact mergeRun_ne_nil _ _

theorem mem_mergeBucket_origin (bucket : List Event) (x : Event) (hx : x ∈ mergeBucket bucket) :
    ∃ y ∈ bucket, x.id = y.id ∧ x.userId = y.userId ∧ x.group = y.group := by
  unfold mergeBucket at hx
  cases hs : sortByStart bucket with
  | nil => rw [hs] at hx; simp [mergeSorted] at hx
  | cons first rest =>
    rw [hs] at hx
    obtain ⟨y, hy, h0, h1, h2, _⟩ := mem_mergeRun_origin first rest x hx
    exact ⟨y, (mem_sortByStart bucket y).1 (hs ▸ hy), h0, h1, h2⟩

theorem mergeBucket_separated (bucket : List Event) :
    (mergeBucket bucket).Pairwise
      (fun x y => x.end_.time < y.start.time ∧ x.start.time ≤ y.start.time) := by
  unfold mergeBucket
  cases hs : sortByStart bucket with
  | nil => simp [mergeSorted]
  | cons first rest => exact mergeRun_separated first rest (hs ▸ sorted_sortByStart bucket)

theorem mergeBucket_idem (bucket : List Event) :
    mergeBucket (mergeBucket bucket) = mergeBucket bucket := by
  have hsep := mergeBucket_separated bucket
  have hsorted : sortByStart (mergeBucket bucket) = mergeBucket bucket :=
    List.Sorted.insertionSort_eq (hsep.imp (fun h => h.2))
  generalize hm : mergeBucket bucket = out at hsep hsorted
  show mergeSorted (sortByStart out) = out
  rw [hsorted]
  cases out with
  | nil => rfl
  | cons first rest => exact mergeRun_fixed first rest (hsep.imp (fun h => h.1))

theorem mergeBucket_cover (bucket : List Event) (t : Int) :
    (∃ r ∈ mergeBucket bucket, r.start.time ≤ t ∧ t ≤ r.end_.time) ↔
      ∃ r ∈ bucket, r.start.time ≤ t ∧ t ≤ r.end_.time := by
  have hmem : (∃ r ∈ bucket, r.start.time ≤ t ∧ t ≤ r.end_.time) ↔
      ∃ r ∈ sortByStart bucket, r.start.time ≤ t ∧ t ≤ r.end_.time := by
    constructor
    · rintro ⟨r, hr, h⟩; exact ⟨r, (mem_sortByStart _ _).2 hr, h⟩
    · rintro ⟨r, hr, h⟩; exact ⟨r, (mem_sortByStart _ _).1 hr, h⟩
  rw [hmem]
  unfold mergeBucket
  have hs := sorted_sortByStart bucket
  cases hb : sortByStart bucket with
  | nil => simp [mergeSorted]
  | cons first rest =>
    rw [hb] at hs
    exact mergeRun_cover first rest t hs


/-! ## Blocks of one key laid side by side -/

theorem keysOf_singleton {κ α : Type} [DecidableEq κ] (key : α → κ) (x : α) :
    keysOf key [x] = [key x] := rfl

theorem keysOf_uniform {κ α : Type} [DecidableEq κ] (key : α → κ) (l : List α) (k : κ)
    (hne : l ≠ []) (hk : ∀ x ∈ l, key x = k) : keysOf key l = [k] := by
  cases l with
  | nil => exact absurd rfl hne
  | cons x l =>
    have hx : key x = k := hk x (by simp)
    have : x :: l = [x] ++ l := rfl
    rw [this, keysOf_append, keysOf_singleton, hx]
    have hz : (keysOf key l).filter (fun k' => decide (k' ∉ [k])) = [] := by
      rw [List.filter_eq_nil_iff]
      intro a ha
      obtain ⟨y, hy, hya⟩ := (mem_keysOf key l a).1 ha
      have : a = k := by rw [← hya]; exact hk y (List.mem_cons_of_mem _ hy)
      simp [this]
    rw [hz]
    rfl

theorem filter_blocks {κ α : Type} [DecidableEq κ] (key : α → κ) (f : κ → List α) (ks : List κ)
    (hnd : ks.Nodup) (hk : ∀ k ∈ ks, ∀ x ∈ f k, key x = k) (k : κ) (hmem : k ∈ ks) :
    (ks.flatMap f).filter (fun x => decide (key x = k)) = f k := by
  induction ks with
  | nil => simp at hmem
  | cons k0 ks ih =>
    have hnd' := List.nodup_cons.1 hnd
    rw [List.flatMap_cons, List.filter_append]
    by_cases h0 : k0 = k
    · subst h0
      have h1 : (f k0).filter (fun x => decide (key x = k0)) = f k0 := by
        rw [List.filter_eq_self]
        intro x hx
        simp [hk k0 (by simp) x hx]
      have h2 : (ks.flatMap f).filter (fun x => decide (key x = k0)) = [] := by
        rw [List.filter_eq_nil_iff]
        intro x hx
        obtain ⟨k1, hk1, hx1⟩ := List.mem_flatMap.1 hx
        have : key x = k1 := hk k1 (List.mem_cons_of_mem _ hk1) x hx1
        simp only [decide_eq_true_eq]
        intro e
        exact hnd'.1 (by rw [← e, this]; exact hk1)
      rw [h1, h2, List.append_nil]
    · have hmem' : k ∈ ks := by
        rcases List.mem_cons.1 hmem with h | h
        · exact absurd h.symm h0
        · exact h
      have h1 : (f k0).filter (fun x => decide (key x = k)) = [] := by
        rw [List.filter_eq_nil_iff]
        intro x hx
        simp only [decide_eq_true_eq]
        rw [hk k0 (by simp) x hx]
        exact h0
      rw [h1, List.nil_append]
      exact ih hnd'.2 (fun k' hk' => hk k' (List.mem_cons_of_mem _ hk')) hmem'

theorem keysOf_blocks {κ α : Type} [DecidableEq κ] (key : α → κ) (f : κ → List α) (ks : List κ)
    (hnd : ks.Nodup) (hk : ∀ k ∈ ks, ∀ x ∈ f k, key x = k) (hne : ∀ k ∈ ks, f k ≠ []) :
    keysOf key (ks.flatMap f) = ks := by
  induction ks with
  | nil => rfl
  | cons k0 ks ih =>
    have hnd' := List.nodup_cons.1 hnd
    rw [List.flatMap_cons, keysOf_append,
      keysOf_uniform key (f k0) k0 (hne k0 (by simp)) (hk k0 (by simp)),
      ih hnd'.2 (fun k' hk' => hk k' (List.mem_cons_of_mem _ hk'))
        (fun k' hk' => hne k' (List.mem_cons_of_mem _ hk'))]
    have : ks.filter (fun k => decide (k ∉ [k0])) = ks := by
      rw [List.filter_eq_self]
      intro a ha
      simp only [List.mem_singleton, decide_not, Bool.not_eq_eq_eq_not, Bool.not_true,
        decide_eq_false_iff_not]
      intro e
      exact hnd'.1 (e ▸ ha)
    rw [this]
    rfl

/-! ## One user in merge mode -/

theorem groupKeys_nodup (evs : List Event) :
    (orderKeys groupIndex (keysOf (fun event => event.group) evs)).Nodup :=
  nodup_orderKeys _ _ (nodup_keysOf _ _)

theorem safeUsers_sublist (evs : List Event) :
    List.Sublist (safeUsers evs) (orderKeys userIdIndex (keysOf (fun event => event.userId) evs)) :=
  List.takeWhile_sublist _

theorem safeUsers_nodup (evs : List Event) : (safeUsers evs).Nodup :=
  (nodup_orderKeys _ _ (nodup_keysOf _ _)).sublist (safeUsers_sublist evs)

theorem safeUsers_ok (evs : List Event) (u : Nat) (hu : u ∈ safeUsers evs) :
    groupsOk (evs.filter (fun e => decide (e.userId = u))) = true :=
  @List.mem_takeWhile_imp Nat
    (fun u => groupsOk (evs.filter (fun e => decide (e.userId = u)))) _ u hu

theorem mem_groupBlock (evs : List Event) (g : String) (x : Event)
    (hx : x ∈ mergeBucket (evs.filter (fun e => decide (e.group = g)))) :
    x.group = g ∧ ∃ y ∈ evs, x.userId = y.userId := by
  obtain ⟨y, hy, _, h1, h2⟩ := mem_mergeBucket_origin _ x hx
  have hy' := List.mem_filter.1 hy
  exact ⟨by rw [h2]; simpa using hy'.2, y, hy'.1, h1⟩

theorem groupBlock_ne_nil (evs : List Event) (g : String)
    (hg : g ∈ orderKeys groupIndex (keysOf (fun event => event.group) evs)) :
    mergeBucket (evs.filter (fun e => decide (e.group = g))) ≠ [] := by
  apply mergeBucket_ne_nil
  obtain ⟨y, hy, hyg⟩ := (mem_keysOf _ evs g).1 ((mem_orderKeys _ _ _).1 hg)
  intro h
  have : y ∈ evs.filter (fun e => decide (e.group = g)) :=
    List.mem_filter.2 ⟨hy, by simpa using hyg⟩
  rw [h] at this
  simp at this

theorem mem_mergeUser (evs : List Event) (x : Event) (hx : x ∈ mergeUser evs) :
    ∃ y ∈ evs, x.userId = y.userId := by
  obtain ⟨g, _, hx'⟩ := List.mem_flatMap.1 hx
  exact (mem_groupBlock evs g x hx').2

theorem mergeUser_ne_nil (evs : List Event) (h : evs ≠ []) : mergeUser evs ≠ [] := by
  cases evs with
  | nil => exact absurd rfl h
  | cons e evs =>
    have hg : e.group ∈ orderKeys groupIndex (keysOf (fun event => event.group) (e :: evs)) :=
      (mem_orderKeys _ _ _).2 ((mem_keysOf _ _ _).2 ⟨e, by simp, rfl⟩)
    have hb := groupBlock_ne_nil (e :: evs) e.group hg
    intro hnil
    unfold mergeUser at hnil
    rw [List.flatMap_eq_nil_iff] at hnil
    exact hb (hnil _ hg)

theorem mem_userBlock (events : List Event) (u : Nat) (x : Event)
    (hx : x ∈ mergeUser (events.filter (fun e => decide (e.userId = u)))) : x.userId = u := by
  obtain ⟨y, hy, h⟩ := mem_mergeUser _ x hx
  rw [h]
  simpa using (List.mem_filter.1 hy).2

theorem userBlock_ne_nil (events : List Event) (u : Nat)
    (hu : u ∈ safeUsers events) :
    mergeUser (events.filter (fun e => decide (e.userId = u))) ≠ [] := by
  apply mergeUser_ne_nil
  obtain ⟨y, hy, hyu⟩ := (mem_keysOf _ events u).1
    ((mem_orderKeys _ _ _).1 ((safeUsers_sublist events).subset hu))
  intro h
  have : y ∈ events.filter (fun e => decide (e.userId = u)) :=
    List.mem_filter.2 ⟨hy, by simpa using hyu⟩
  rw [h] at this
  simp at this

/-! ## C1 -/

/-- C1. In merge mode any two output records of the same `userId` and `group` are
separated and in chronological order: the later one starts strictly after the
earlier one ends. -/
theorem mergeEvents_merge_separated (events : List Event) (now : Nat) :
    (mergeEvents events false now).Pairwise
      (fun x y => x.userId = y.userId → x.group = y.group → x.end_.time < y.start.time) := by
  rw [mergeEvents_merge, List.pairwise_flatMap]
  constructor
  · intro u _
    unfold mergeUser
    rw [List.pairwise_flatMap]
    constructor
    · intro g _
      exact (mergeBucket_separated _).imp (fun h _ _ => h.1)
    · refine (groupKeys_nodup _).imp ?_
      intro g1 g2 hne x hx y hy _ hg
      have h1 := (mem_groupBlock _ g1 x hx).1
      have h2 := (mem_groupBlock _ g2 y hy).1
      exact absurd (by rw [← h1, ← h2, hg]) hne
  · refine (safeUsers_nodup _).imp ?_
    intro u1 u2 hne x hx y hy hu _
    have h1 := mem_userBlock _ u1 x hx
    have h2 := mem_userBlock _ u2 y hy
    exact absurd (by rw [← h1, ← h2, hu]) hne
/-! ## C2 -/

theorem safeUsers_all (events : List Event)
    (hgroups : ∀ e ∈ events, e.group ∉ objectPrototypeKeys) :
    safeUsers events = orderKeys userIdIndex (keysOf (fun event => event.userId) events) := by
  unfold safeUsers
  rw [List.takeWhile_eq_self_iff]
  intro u _
  unfold groupsOk
  simp only [Bool.not_eq_true', List.any_eq_false, groupInherited, decide_eq_true_eq]
  intro e he
  exact hgroups e (List.mem_filter.1 he).1

theorem cover_iff_of_merge (events : List Event) (now : Nat) (u : Nat) (g : String)
    (t : Int) (hgroups : ∀ e ∈ events, e.group ∉ objectPrototypeKeys) :
    (∃ r ∈ mergeEvents events false now,
        r.userId = u ∧ r.group = g ∧ r.start.time ≤ t ∧ t ≤ r.end_.time) ↔
      ∃ r ∈ events, r.userId = u ∧ r.group = g ∧ r.start.time ≤ t ∧ t ≤ r.end_.time := by
  rw [mergeEvents_merge, safeUsers_all events hgroups]
  constructor
  · rintro ⟨r, hr, hu, hg, hcov⟩
    obtain ⟨u', _, hr'⟩ := List.mem_flatMap.1 hr
    have hu' : u' = u := by rw [← hu, mem_userBlock events u' r hr']
    subst hu'
    obtain ⟨g', _, hr''⟩ := List.mem_flatMap.1 hr'
    have hg' : g' = g := by rw [← hg, (mem_groupBlock _ g' r hr'').1]
    subst hg'
    obtain ⟨r', hmem, hcov'⟩ := (mergeBucket_cover _ t).1 ⟨r, hr'', hcov⟩
    have h1 := List.mem_filter.1 hmem
    have h2 := List.mem_filter.1 h1.1
    exact ⟨r', h2.1, by simpa using h2.2, by simpa using h1.2, hcov'⟩
  · rintro ⟨r, hr, hu, hg, hcov⟩
    have hmu : r ∈ events.filter (fun e => decide (e.userId = u)) :=
      List.mem_filter.2 ⟨hr, by simpa using hu⟩
    have hmg : r ∈ (events.filter (fun e => decide (e.userId = u))).filter
        (fun e => decide (e.group = g)) :=
      List.mem_filter.2 ⟨hmu, by simpa using hg⟩
    have hku : u ∈ orderKeys userIdIndex (keysOf (fun event => event.userId) events) :=
      (mem_orderKeys _ _ _).2 ((mem_keysOf _ _ _).2 ⟨r, hr, hu⟩)
    have hkg : g ∈ orderKeys groupIndex (keysOf (fun event => event.group)
        (events.filter (fun e => decide (e.userId = u)))) :=
      (mem_orderKeys _ _ _).2 ((mem_keysOf _ _ _).2 ⟨r, hmu, hg⟩)
    obtain ⟨r', hmem, hcov'⟩ := (mergeBucket_cover _ t).2 ⟨r, hmg, hcov⟩
    have hin : r' ∈ mergeUser (events.filter (fun e => decide (e.userId = u))) :=
      List.mem_flatMap.2 ⟨g, hkg, hmem⟩
    exact ⟨r', List.mem_flatMap.2 ⟨u, hku, hin⟩, mem_userBlock events u r' hin,
      (mem_groupBlock _ g r' hmem).1, hcov'⟩

/-- C2, amended. When no input record has a group named like a property of
`Object.prototype`, then in merge mode, for every `userId` and `group`, the instants covered
by the output records of that pair are exactly the instants covered by the input records of
that pair (a record covers `start ≤ t ≤ end`, nothing when `end < start`); and Scenario A:
09:00-10:00 with 09:30-11:00 gives the single interval 09:00-11:00. -/
theorem mergeEvents_merge_cover (events : List Event) (now : Nat) (u : Nat) (g : String)
    (t : Int) (hgroups : ∀ e ∈ events, e.group ∉ objectPrototypeKeys) :
    ((∃ r ∈ mergeEvents events false now,
        r.userId = u ∧ r.group = g ∧ r.start.time ≤ t ∧ t ≤ r.end_.time) ↔
      ∃ r ∈ events, r.userId = u ∧ r.group = g ∧ r.start.time ≤ t ∧ t ≤ r.end_.time)
    ∧ mergeEvents [scenarioA1, scenarioA2] false now
        = [{ scenarioA1 with end_ := scenarioA2.end_ }] := by
  refine ⟨cover_iff_of_merge events now u g t hgroups, ?_⟩
  rw [mergeEvents_merge]
  decide

/-- C2 at Scenario A: the instant 10:30 is covered before and after the merge. -/
theorem mergeEvents_merge_cover_witness :
    (∀ e ∈ [scenarioA1, scenarioA2], e.group ∉ objectPrototypeKeys)
    ∧ ((∃ r ∈ mergeEvents [scenarioA1, scenarioA2] false 0,
          r.userId = 23 ∧ r.group = "Layer 1" ∧ r.start.time ≤ 1704105000000
            ∧ 1704105000000 ≤ r.end_.time) ↔
        ∃ r ∈ [scenarioA1, scenarioA2],
          r.userId = 23 ∧ r.group = "Layer 1" ∧ r.start.time ≤ 1704105000000
            ∧ 1704105000000 ≤ r.end_.time) :=
  ⟨by decide,
   (mergeEvents_merge_cover [scenarioA1, scenarioA2] 0 23 "Layer 1" 1704105000000
      (by decide)).1⟩

/-- C2 as stated fails: with a record of owner 23 in `Layer 1` and a record of owner 24
whose group is named `constructor`, the grouping of owner 24 raises, the result holds the
first record only, and the instant 09:30 that the second record covers is no longer
covered for owner 24 and group `constructor`. -/
theorem mergeEvents_merge_cover_fails :
    mergeEvents [scenarioA1, constructorEvent] false 0 = [scenarioA1]
    ∧ ¬ ((∃ r ∈ mergeEvents [scenarioA1, constructorEvent] false 0,
            r.userId = 24 ∧ r.group = "constructor" ∧ r.start.time ≤ 1704101400000
              ∧ 1704101400000 ≤ r.end_.time) ↔
          ∃ r ∈ [scenarioA1, constructorEvent],
            r.userId = 24 ∧ r.group = "constructor" ∧ r.start.time ≤ 1704101400000
              ∧ 1704101400000 ≤ r.end_.time) := by
  have h : mergeEvents [scenarioA1, constructorEvent] false 0 = [scenarioA1] := by decide
  refine ⟨h, ?_⟩
  rw [h]
  decide

/-! ## C5 -/

theorem mergeUser_eq (groupEvents : List Event) :
    mergeUser groupEvents =
      (orderKeys groupIndex (keysOf (fun event => event.group) groupEvents)).flatMap
        (fun g => mergeBucket (groupEvents.filter (fun e => decide (e.group = g)))) := rfl

theorem mergeUser_idem (evs : List Event) : mergeUser (mergeUser evs) = mergeUser evs := by
  have hk : ∀ g ∈ orderKeys groupIndex (keysOf (fun event => event.group) evs),
      ∀ x ∈ mergeBucket (evs.filter (fun e => decide (e.group = g))), x.group = g :=
    fun g _ x hx => (mem_groupBlock evs g x hx).1
  have hkeys : keysOf (fun event => event.group) (mergeUser evs)
      = orderKeys groupIndex (keysOf (fun event => event.group) evs) :=
    keysOf_blocks _ _ _ (groupKeys_nodup evs) hk (fun g hg => groupBlock_ne_nil evs g hg)
  have hstep : mergeUser (mergeUser evs)
      = (orderKeys groupIndex (keysOf (fun event => event.group) evs)).flatMap
          (fun g => mergeBucket ((mergeUser evs).filter (fun e => decide (e.group = g)))) := by
    rw [mergeUser_eq (mergeUser evs), hkeys, orderKeys_idem]
  rw [hstep]
  conv_rhs => rw [mergeUser_eq]
  apply List.flatMap_congr
  intro g hg
  have hf : (mergeUser evs).filter (fun e => decide (e.group = g))
      = mergeBucket (evs.filter (fun e => decide (e.group = g))) :=
    filter_blocks (fun event : Event => event.group) _ _ (groupKeys_nodup evs) hk g hg
  rw [hf, mergeBucket_idem]

theorem mem_mergeUser_group (evs : List Event) (x : Event) (hx : x ∈ mergeUser evs) :
    ∃ y ∈ evs, x.group = y.group := by
  obtain ⟨g, _, hx'⟩ := List.mem_flatMap.1 hx
  obtain ⟨y, hy, _, _, hg⟩ := mem_mergeBucket_origin _ x hx'
  exact ⟨y, (List.mem_filter.1 hy).1, hg⟩

theorem groupsOk_mergeUser (evs : List Event) (h : groupsOk evs = true) :
    groupsOk (mergeUser evs) = true := by
  unfold groupsOk at h ⊢
  simp only [Bool.not_eq_true', List.any_eq_false] at h ⊢
  intro x hx
  obtain ⟨y, hy, hg⟩ := mem_mergeUser_group evs x hx
  rw [hg]
  exact h y hy

/-- C5. Merging is idempotent: merging the result of a merge gives the same list
(same records, same fields, same order). -/
theorem mergeEvents_merge_idempotent (events : List Event) (now now' : Nat) :
    mergeEvents (mergeEvents events false now) false now' = mergeEvents events false now := by
  have hk : ∀ u ∈ safeUsers events,
      ∀ x ∈ mergeUser (events.filter (fun e => decide (e.userId = u))), x.userId = u :=
    fun u _ x hx => mem_userBlock events u x hx
  have hout := mergeEvents_merge events now
  have hkeys : keysOf (fun event => event.userId) (mergeEvents events false now)
      = safeUsers events := by
    rw [hout]
    exact keysOf_blocks _ _ _ (safeUsers_nodup events) hk
      (fun u hu => userBlock_ne_nil events u hu)
  have hf : ∀ u ∈ safeUsers events,
      (mergeEvents events false now).filter (fun e => decide (e.userId = u))
        = mergeUser (events.filter (fun e => decide (e.userId = u))) := by
    intro u hu
    rw [hout]
    exact filter_blocks (fun event : Event => event.userId) _ _ (safeUsers_nodup events) hk u hu
  have hsafe : safeUsers (mergeEvents events false now) = safeUsers events := by
    show List.takeWhile _ (orderKeys userIdIndex
      (keysOf (fun event => event.userId) (mergeEvents events false now))) = _
    rw [hkeys, orderKeys_sublist userIdIndex _ _ (safeUsers_sublist events),
      List.takeWhile_eq_self_iff]
    intro u hu
    rw [hf u hu]
    exact groupsOk_mergeUser _ (safeUsers_ok events u hu)
  rw [mergeEvents_merge (mergeEvents events false now), hsafe]
  conv_rhs => rw [hout]
  apply List.flatMap_congr
  intro u hu
  rw [hf u hu, mergeUser_idem]

/-! ## C9 -/

theorem find?_first {α : Type} (p : α → Bool) (pre : List α) (u : α) (post : List α)
    (hpre : ∀ x ∈ pre, p x = false) (hu : p u = true) :
    (pre ++ u :: post).find? p = some u := by
  induction pre with
  | nil => simp [List.find?, hu]
  | cons x pre ih =>
    have hx : p x = false := hpre x (by simp)
    simp only [List.cons_append, List.find?, hx]
    exact ih (fun y hy => hpre y (List.mem_cons_of_mem _ hy))

/-- C9. `getUser` returns the first directory entry with the given id when that entry
has a non-empty name; when the first such entry has no name or an empty one, or no
entry has the id, it returns exactly the fallback `{name: "Mock", className: "red"}`.
It is a total function: it returns on every directory and id. -/
theorem getUser_spec (directory : List UserEntry) (id : Nat) :
    (∀ pre u post, directory = pre ++ u :: post → (∀ x ∈ pre, x.id ≠ some id) →
        u.id = some id → (∃ s, u.name = some s ∧ s ≠ "") → getUser directory id = u)
    ∧ (∀ pre u post, directory = pre ++ u :: post → (∀ x ∈ pre, x.id ≠ some id) →
        u.id = some id → (u.name = none ∨ u.name = some "") →
        getUser directory id = { id := none, name := some "Mock", className := some "red" })
    ∧ ((∀ x ∈ directory, x.id ≠ some id) →
        getUser directory id = { id := none, name := some "Mock", className := some "red" }) := by
  refine ⟨?_, ?_, ?_⟩
  · rintro pre u post rfl hpre hu ⟨s, hs, hne⟩
    have hf := find?_first (fun item : UserEntry => item.id == some id) pre u post
      (fun x hx => by simpa using hpre x hx) (by simp [hu])
    simp [getUser, hf, hs, truthy, hne]
  · rintro pre u post rfl hpre hu hname
    have hf := find?_first (fun item : UserEntry => item.id == some id) pre u post
      (fun x hx => by simpa using hpre x hx) (by simp [hu])
    rcases hname with h | h <;> simp [getUser, hf, h, truthy]
  · intro hall
    have hf : directory.find? (fun item : UserEntry => item.id == some id) = none := by
      rw [List.find?_eq_none]
      intro x hx
      simpa using hall x hx
    simp [getUser, hf]

/-- Instances of C9 on the directory of `enums.js`: a known id, and an unknown one. -/
theorem getUser_spec_witness :
    getUser userEnums 24 = { id := some 24, name := some "John M", className := some "light-blue" }
    ∧ getUser userEnums 99 = { id := none, name := some "Mock", className := some "red" } :=
  ⟨(getUser_spec userEnums 24).1
      [{ id := some 23, name := some "Jack A", className := some "green" }]
      { id := some 24, name := some "John M", className := some "light-blue" }
      [{ id := some 27, name := some "Richard M", className := some "light-orange" }]
      rfl (by decide) rfl ⟨"John M", rfl, by decide⟩,
   (getUser_spec userEnums 99).2.2 (by decide)⟩

/-! ## C3, C4: the override pass at concrete inputs -/

/-- C3 (Scenario B). For 09:00-17:00 followed by the overlapping 12:00-13:00 the override
pass emits a record derived from the first with its START moved to 12:00 and its end
kept at 17:00 (not 09:00-12:00), then the second record. -/
theorem mergeEvents_override_scenarioB (now : Nat) :
    mergeEvents [scenarioB1, scenarioB2] true now =
        [{ scenarioB1 with start := scenarioB2.start, id := now },
         { scenarioB2 with id := now + 1 }]
    ∧ ¬ ∃ r ∈ mergeEvents [scenarioB1, scenarioB2] true now,
        r.start.time = scenarioB1.start.time ∧ r.end_.time = scenarioB2.start.time := by
  have h : mergeEvents [scenarioB1, scenarioB2] true now =
      [{ scenarioB1 with start := scenarioB2.start, id := now },
       { scenarioB2 with id := now + 1 }] := rfl
  refine ⟨h, ?_⟩
  rw [h]
  simp [scenarioB1, scenarioB2]

/-- C4. Two records of one owner and group that do not overlap go in, one record comes
out: the override pass drops the earlier one. -/
theorem mergeEvents_override_drops (now : Nat) :
    mergeEvents [disjoint1, disjoint2] true now = [{ disjoint2 with id := now }]
    ∧ (mergeEvents [disjoint1, disjoint2] true now).length ≠ [disjoint1, disjoint2].length := by
  have h : mergeEvents [disjoint1, disjoint2] true now = [{ disjoint2 with id := now }] := rfl
  refine ⟨h, ?_⟩
  rw [h]
  simp

/-! ## Invariants of the loops of mergeEvents -/

theorem foldl_invariant {σ κ : Type} (P : σ → Prop) (f : σ → κ → σ)
    (h : ∀ st k, P st → P (f st k)) (ks : List κ) (st : σ) (h0 : P st) : P (ks.foldl f st) := by
  induction ks generalizing st with
  | nil => exact h0
  | cons k ks ih => exact ih _ (h _ _ h0)

theorem processUser_invariant (P : List Event × Nat → Prop) (isOverridenProcess : Bool)
    (groupEvents : List Event) (st st' : List Event × Nat)
    (hstep : ∀ st g, P st → P (processGroup isOverridenProcess
      (groupEvents.filter (fun e => decide (e.group = g))) st))
    (h0 : P st) (hrun : processUser isOverridenProcess groupEvents st = some st') : P st' := by
  unfold processUser at hrun
  rw [groupInto_group] at hrun
  by_cases hok : groupsOk groupEvents = true
  · simp only [hok, if_true, Option.some.injEq] at hrun
    rw [← hrun]
    apply foldl_invariant P
    · intro st g hst
      rw [bucketAt_groupPlain]
      exact hstep st g hst
    · exact h0
  · simp [hok] at hrun

theorem forEachUser_invariant (P : List Event × Nat → Prop) (isOverridenProcess : Bool)
    (events : List Event) (userIds : List Nat) (st : List Event × Nat)
    (hstep : ∀ st u g, P st → P (processGroup isOverridenProcess
      ((events.filter (fun e => decide (e.userId = u))).filter
        (fun e => decide (e.group = g))) st))
    (h0 : P st) :
    ∃ st', P st' ∧ forEachUser isOverridenProcess
      (groupPlain (fun event : Event => event.userId) events) userIds st = st'.1 := by
  induction userIds generalizing st with
  | nil => exact ⟨st, h0, rfl⟩
  | cons u us ih =>
    rw [forEachUser, bucketAt_groupPlain]
    cases hrun : processUser isOverridenProcess
        (events.filter (fun e => decide (e.userId = u))) st with
    | none => exact ⟨st, h0, rfl⟩
    | some st' =>
      exact ih st' (processUser_invariant P isOverridenProcess _ st st'
        (fun st g hst => hstep st u g hst) h0 hrun)

theorem mergeEvents_invariant (P : List Event × Nat → Prop) (isOverridenProcess : Bool)
    (events : List Event) (now : Nat)
    (hstep : ∀ st u g, P st → P (processGroup isOverridenProcess
      ((events.filter (fun e => decide (e.userId = u))).filter
        (fun e => decide (e.group = g))) st))
    (h0 : P ([], now)) :
    ∃ st, P st ∧ mergeEvents events isOverridenProcess now = st.1 := by
  unfold mergeEvents
  rw [groupInto_userId]
  exact forEachUser_invariant P isOverridenProcess events _ _ hstep h0

/-! ## C6 -/

theorem minted_concat (seed : Nat) (merged : List Event) (n : Nat) (e : Event)
    (h : Minted seed merged n) (he : e.id = n) : Minted seed (merged ++ [e]) (n + 1) := by
  obtain ⟨h1, h2⟩ := h
  constructor
  · rw [List.map_append, List.length_append, h1, List.length_singleton, List.range'_1_concat]
    simp [he, h2]
  · rw [List.length_append, List.length_singleton, h2]
    omega

theorem forLoop_override_minted (seed : Nat) (pre rest : List Event) (current : Event)
    (result : List Event) (n : Nat) (h : Minted seed (pre ++ result) n) :
    Minted seed (pre ++ (forLoop true rest current result n).2.1)
      (forLoop true rest current result n).2.2 := by
  induction rest generalizing current result n with
  | nil => simpa [forLoop] using h
  | cons next rest ih =>
    by_cases hc : current.end_.time > next.start.time
    · simp only [forLoop, hc, if_true]
      apply ih
      rw [← List.append_assoc]
      exact minted_concat seed _ n _ h rfl
    · simp only [forLoop, hc, if_true, if_false]
      exact ih _ _ _ h

theorem processGroup_override_minted (seed : Nat) (bucket : List Event) (st : List Event × Nat)
    (h : Minted seed st.1 st.2) :
    Minted seed (processGroup true bucket st).1 (processGroup true bucket st).2 := by
  unfold processGroup
  cases hs : sortByStart bucket with
  | nil => exact h
  | cons first rest =>
    have hl := forLoop_override_minted seed st.1 rest first [] st.2 (by simpa using h)
    simp only [if_true]
    rw [← List.append_assoc]
    exact minted_concat seed _ _ _ hl rfl

theorem mergeEvents_override_minted (events : List Event) (seed : Nat) :
    (mergeEvents events true seed).map (fun e => e.id)
      = List.range' seed (mergeEvents events true seed).length := by
  obtain ⟨st, hst, heq⟩ := mergeEvents_invariant
    (fun st : List Event × Nat => Minted seed st.1 st.2) true events seed
    (fun st _ _ hst => processGroup_override_minted seed _ st hst) ⟨rfl, rfl⟩
  rw [heq]
  exact hst.1

theorem mergeEvents_override_single (r : Event) (seed : Nat)
    (hgroup : r.group ∉ objectPrototypeKeys) :
    mergeEvents [r] true seed = [{ r with id := seed }] := by
  have hu : objectKeys userIdIndex (groupPlain (fun event : Event => event.userId) [r])
      = [r.userId] := by
    cases h : userIdIndex r.userId <;>
      simp [objectKeys, groupPlain, pushPlain, h]
  have hg : objectKeys groupIndex (groupPlain (fun event : Event => event.group) [r])
      = [r.group] := by
    cases h : groupIndex r.group <;>
      simp [objectKeys, groupPlain, pushPlain, h]
  have hok : groupsOk [r] = true := by
    simp [groupsOk, groupInherited, hgroup]
  have hfil : ([r].filter (fun e => decide (e.userId = r.userId))) = [r] := by simp
  unfold mergeEvents
  rw [groupInto_userId]
  simp only [hu, forEachUser, bucketAt_groupPlain, hfil, processUser, groupInto_group, hok,
    if_true, hg, List.foldl_cons, List.foldl_nil]
  simp [processGroup, sortByStart, forLoop]

/-- C6, amended. The records of the override pass carry freshly minted identifiers: with
`s` the seed of the counter, the ids of the output are `s, s+1, ..., s+k-1` in output
order, hence strictly increasing, pairwise distinct and different from every input id
below `s`; a single input record whose group is not named like a property of
`Object.prototype` comes out once, unchanged but for its id, which is `s`. -/
theorem mergeEvents_override_ids (events : List Event) (s : Nat) :
    (mergeEvents events true s).map (fun e => e.id)
        = List.range' s (mergeEvents events true s).length
    ∧ (mergeEvents events true s).Pairwise (fun x y => x.id < y.id)
    ∧ ((mergeEvents events true s).map (fun e => e.id)).Nodup
    ∧ (∀ e ∈ events, e.id < s → ∀ o ∈ mergeEvents events true s, o.id ≠ e.id)
    ∧ (∀ r : Event, r.group ∉ objectPrototypeKeys →
        mergeEvents [r] true s = [{ r with id := s }]) := by
  have h := mergeEvents_override_minted events s
  refine ⟨h, ?_, ?_, ?_, fun r hr => mergeEvents_override_single r s hr⟩
  · have := List.pairwise_lt_range' s (mergeEvents events true s).length
    rw [← h, List.pairwise_map] at this
    exact this
  · rw [h]
    exact List.nodup_range' s _
  · intro e _ hlt o ho heq
    have hmem : o.id ∈ (mergeEvents events true s).map (fun e => e.id) :=
      List.mem_map.2 ⟨o, ho, rfl⟩
    rw [h, List.mem_range'_1] at hmem
    omega

/-- C6 at Scenario D: the single record 09:00-10:00 of `Layer 1` with id 1 comes out with
the id 1000 minted from the seed 1000. -/
theorem mergeEvents_override_ids_witness :
    scenarioA1.group ∉ objectPrototypeKeys
    ∧ mergeEvents [scenarioA1] true 1000 = [{ scenarioA1 with id := 1000 }] :=
  ⟨by decide, (mergeEvents_override_ids [scenarioA1] 1000).2.2.2.2 scenarioA1 (by decide)⟩

/-- C6 as stated fails: a single record whose group is named `__proto__` makes the
grouping raise, and the override pass returns no record at all. -/
theorem mergeEvents_override_single_fails :
    mergeEvents [protoEvent] true 1000 = []
    ∧ mergeEvents [protoEvent] true 1000 ≠ [{ protoEvent with id := 1000 }] := by
  decide

/-! ## C10: records dominated by an earlier record are absorbed -/

theorem covered_mono (pool pool' : List Event) (l : List (Event × Bool))
    (hsub : ∀ a ∈ pool, a ∈ pool') (h : Covered pool l) : Covered pool' l := by
  induction l generalizing pool pool' with
  | nil => trivial
  | cons x l ih =>
    obtain ⟨e, b⟩ := x
    cases b with
    | true =>
      obtain ⟨⟨a, ha, hd⟩, hrest⟩ := h
      exact ⟨⟨a, hsub a ha, hd⟩, ih pool pool' hsub hrest⟩
    | false =>
      refine ih (e :: pool) (e :: pool') ?_ h
      intro a ha
      rcases List.mem_cons.1 ha with ha | ha
      · simp [ha]
      · exact List.mem_cons_of_mem _ (hsub a ha)

theorem covered_insert_base (x : Event) (pool : List Event) (l : List (Event × Bool))
    (h : Covered (x :: pool) l) :
    Covered pool (List.orderedInsert (fun a b => a.1.start.time ≤ b.1.start.time) (x, false) l) := by
  induction l generalizing pool with
  | nil => exact h
  | cons y l ih =>
    obtain ⟨e, b⟩ := y
    by_cases hr : x.start.time ≤ e.start.time
    · rw [List.orderedInsert, if_pos hr]
      exact h
    · rw [List.orderedInsert, if_neg hr]
      cases b with
      | true =>
        obtain ⟨⟨a, ha, hd⟩, hrest⟩ := h
        refine ⟨?_, ih pool hrest⟩
        rcases List.mem_cons.1 ha with ha | ha
        · subst ha
          exact absurd hd.1 hr
        · exact ⟨a, ha, hd⟩
      | false =>
        show Covered (e :: pool) _
        apply ih
        refine covered_mono (e :: x :: pool) (x :: e :: pool) l ?_ h
        intro a ha
        simp only [List.mem_cons] at ha ⊢
        tauto

theorem covered_insert_override (o : Event) (pool : List Event) (l : List (Event × Bool))
    (ho : ∃ a ∈ pool, Dominates a o) (h : Covered pool l) :
    Covered pool (List.orderedInsert (fun a b => a.1.start.time ≤ b.1.start.time) (o, true) l) := by
  induction l generalizing pool with
  | nil => exact ⟨ho, trivial⟩
  | cons y l ih =>
    obtain ⟨e, b⟩ := y
    by_cases hr : o.start.time ≤ e.start.time
    · rw [List.orderedInsert, if_pos hr]
      exact ⟨ho, h⟩
    · rw [List.orderedInsert, if_neg hr]
      cases b with
      | true => exact ⟨h.1, ih pool ho h.2⟩
      | false =>
        show Covered (e :: pool) _
        obtain ⟨a, ha, hd⟩ := ho
        exact ih (e :: pool) ⟨a, List.mem_cons_of_mem _ ha, hd⟩ h

theorem sortMarked_cons (x : Event × Bool) (l : List (Event × Bool)) :
    sortMarked (x :: l)
      = List.orderedInsert (fun a b => a.1.start.time ≤ b.1.start.time) x (sortMarked l) := rfl

theorem covered_sort_finals (finals : List Event) (pool : List Event) :
    Covered pool (sortMarked (finals.map (fun e => (e, false)))) := by
  induction finals with
  | nil => trivial
  | cons f finals ih =>
    rw [List.map_cons, sortMarked_cons]
    apply covered_insert_base
    exact covered_mono pool (f :: pool) _ (fun a ha => List.mem_cons_of_mem _ ha) ih

theorem covered_sort_override (ov finals : List Event) (pool : List Event)
    (hov : ∀ o ∈ ov, ∃ a ∈ pool, Dominates a o) :
    Covered pool (sortMarked (ov.map (fun e => (e, true)) ++ finals.map (fun e => (e, false)))) := by
  induction ov with
  | nil => exact covered_sort_finals finals pool
  | cons o ov ih =>
    rw [List.map_cons, List.cons_append, sortMarked_cons]
    exact covered_insert_override o pool _ (hov o (by simp))
      (ih (fun o' ho' => hov o' (List.mem_cons_of_mem _ ho')))

theorem covered_sort_base (base : List Event) (rest : List (Event × Bool)) (pool : List Event)
    (h : Covered (base ++ pool) (sortMarked rest)) :
    Covered pool (sortMarked (base.map (fun e => (e, false)) ++ rest)) := by
  induction base generalizing pool with
  | nil => exact h
  | cons p base ih =>
    rw [List.map_cons, List.cons_append, sortMarked_cons]
    apply covered_insert_base
    apply ih
    refine covered_mono _ _ _ ?_ h
    intro a ha
    simp only [List.mem_append, List.mem_cons] at ha ⊢
    tauto

theorem covered_sorted_all (base ov finals : List Event)
    (hov : ∀ o ∈ ov, ∃ a ∈ base, Dominates a o) :
    Covered [] (sortMarked (base.map (fun e => (e, false))
      ++ (ov.map (fun e => (e, true)) ++ finals.map (fun e => (e, false))))) := by
  apply covered_sort_base
  apply covered_sort_override
  intro o ho
  obtain ⟨a, ha, hd⟩ := hov o ho
  exact ⟨a, by simp [ha], hd⟩

theorem normEnd_time (c c2 : Event) (h : normEnd c = normEnd c2) :
    c.end_.time = c2.end_.time := by
  have := congrArg (fun e : Event => e.end_.time) h
  simpa [normEnd] using this

theorem normEnd_setEnd (c c2 : Event) (s s2 : Stamp) (h : normEnd c = normEnd c2)
    (hs : s.time = s2.time) :
    normEnd { c with end_ := s } = normEnd { c2 with end_ := s2 } := by
  cases c
  cases c2
  simp only [normEnd, Event.mk.injEq, Stamp.mk.injEq, true_and] at h ⊢
  obtain ⟨h1, h2, h3, h4, _, h6, h7, h8⟩ := h
  exact ⟨h1, h2, h3, h4, hs, h6, h7, h8⟩

theorem normEnd_sameEnd (c : Event) (s : Stamp) (hs : s.time = c.end_.time) :
    normEnd { c with end_ := s } = normEnd c := by
  cases c
  simpa [normEnd] using hs

theorem eq_of_normEnd (x y : Event) (h : normEnd x = normEnd y) (he : x.end_ = y.end_) :
    x = y := by
  cases x
  cases y
  simp only [normEnd, Event.mk.injEq] at h ⊢
  simp only at he
  obtain ⟨h1, h2, h3, h4, _, h6, h7, h8⟩ := h
  exact ⟨h1, h2, h3, h4, he, h6, h7, h8⟩

theorem eq_of_map_normEnd (l1 l2 : List Event) (h : l1.map normEnd = l2.map normEnd)
    (hc : ∀ x ∈ l1, ∀ y ∈ l2, x.end_.time = y.end_.time → x.end_ = y.end_) : l1 = l2 := by
  induction l1 generalizing l2 with
  | nil =>
    cases l2 with
    | nil => rfl
    | cons y l2 => simp at h
  | cons x l1 ih =>
    cases l2 with
    | nil => simp at h
    | cons y l2 =>
      rw [List.map_cons, List.map_cons, List.cons.injEq] at h
      have hxy : x = y :=
        eq_of_normEnd x y h.1 (hc x (by simp) y (by simp) (normEnd_time x y h.1))
      rw [hxy, ih l2 h.2 (fun a ha b hb =>
        hc a (List.mem_cons_of_mem _ ha) b (List.mem_cons_of_mem _ hb))]

theorem mergeRun_skip (l : List (Event × Bool)) (current current2 : Event) (pool : List Event)
    (lo : Int) (hs : l.Sorted (fun a b => a.1.start.time ≤ b.1.start.time))
    (hlo : ∀ e ∈ l, lo ≤ e.1.start.time) (hcov : Covered pool l)
    (hpool : ∀ a ∈ pool, a.end_.time ≤ current.end_.time ∨ a.end_.time < lo)
    (hcur : normEnd current = normEnd current2) :
    (mergeRun current (l.map Prod.fst)).map normEnd
      = (mergeRun current2 ((l.filter (fun x => !x.2)).map Prod.fst)).map normEnd := by
  induction l generalizing current current2 pool lo with
  | nil => simp [mergeRun, hcur]
  | cons y l ih =>
    obtain ⟨e, b⟩ := y
    have hs' := List.sorted_cons.1 hs
    have hle : lo ≤ e.start.time := hlo (e, b) (by simp)
    have hlo' : ∀ z ∈ l, e.start.time ≤ z.1.start.time := hs'.1
    have htime := normEnd_time current current2 hcur
    cases b with
    | true =>
      obtain ⟨⟨a, ha, hd⟩, hrest⟩ := hcov
      obtain ⟨_, hd2, hd3⟩ := hd
      have hac : a.end_.time ≤ current.end_.time := by
        rcases hpool a ha with h | h
        · exact h
        · omega
      have habs : e.start.time ≤ current.end_.time := by omega
      have hend : (if current.end_.time > e.end_.time then current.end_ else e.end_).time
          = current.end_.time := by
        split
        · rfl
        · omega
      have hfil : ((e, true) :: l).filter (fun x => !x.2) = l.filter (fun x => !x.2) := by
        simp [List.filter]
      rw [hfil, List.map_cons]
      show (mergeRun current (e :: l.map Prod.fst)).map normEnd = _
      rw [mergeRun, if_pos habs]
      apply ih _ current2 pool e.start.time hs'.2 hlo' hrest
      · intro a' ha'
        show a'.end_.time
          ≤ (if current.end_.time > e.end_.time then current.end_ else e.end_).time ∨ _
        rw [hend]
        rcases hpool a' ha' with h | h
        · exact Or.inl h
        · exact Or.inr (by omega)
      · rw [normEnd_sameEnd current _ hend]
        exact hcur
    | false =>
      have hfil : ((e, false) :: l).filter (fun x => !x.2)
          = (e, false) :: l.filter (fun x => !x.2) := by
        simp [List.filter]
      rw [hfil, List.map_cons, List.map_cons]
      show (mergeRun current (e :: l.map Prod.fst)).map normEnd
        = (mergeRun current2 (e :: (l.filter (fun x => !x.2)).map Prod.fst)).map normEnd
      by_cases habs : e.start.time ≤ current.end_.time
      · have habs2 : e.start.time ≤ current2.end_.time := by omega
        rw [mergeRun, mergeRun, if_pos habs, if_pos habs2]
        apply ih _ _ (e :: pool) e.start.time hs'.2 hlo' hcov
        · intro a' ha'
          show a'.end_.time
            ≤ (if current.end_.time > e.end_.time then current.end_ else e.end_).time ∨ _
          rcases List.mem_cons.1 ha' with h | h
          · subst h
            left
            split <;> omega
          · rcases hpool a' h with h' | h'
            · left
              split <;> omega
            · exact Or.inr (by omega)
        · apply normEnd_setEnd _ _ _ _ hcur
          by_cases hgt : current.end_.time > e.end_.time
          · have hgt2 : current2.end_.time > e.end_.time := by omega
            rw [if_pos hgt, if_pos hgt2]
            exact htime
          · have hgt2 : ¬ current2.end_.time > e.end_.time := by omega
            rw [if_neg hgt, if_neg hgt2]
      · have habs2 : ¬ e.start.time ≤ current2.end_.time := by omega
        rw [mergeRun, mergeRun, if_neg habs, if_neg habs2, List.map_cons, List.map_cons, hcur]
        congr 1
        apply ih e e (e :: pool) e.start.time hs'.2 hlo' hcov
        · intro a' ha'
          rcases List.mem_cons.1 ha' with h | h
          · subst h
            exact Or.inl (le_refl _)
          · rcases hpool a' h with h' | h'
            · exact Or.inr (by omega)
            · exact Or.inr (by omega)
        · rfl

theorem filter_orderedInsert_marked (p : Event × Bool → Bool) (x : Event × Bool)
    (l : List (Event × Bool)) (hs : l.Sorted (fun a b => a.1.start.time ≤ b.1.start.time)) :
    (List.orderedInsert (fun a b => a.1.start.time ≤ b.1.start.time) x l).filter p
      = if p x then List.orderedInsert (fun a b => a.1.start.time ≤ b.1.start.time) x (l.filter p)
        else l.filter p := by
  induction l with
  | nil => by_cases hp : p x <;> simp [hp]
  | cons y l ih =>
    have hs' := List.sorted_cons.1 hs
    by_cases hr : x.1.start.time ≤ y.1.start.time
    · rw [List.orderedInsert, if_pos hr]
      by_cases hp : p x
      · rw [List.filter_cons_of_pos hp, if_pos hp]
        cases hf : (y :: l).filter p with
        | nil => rfl
        | cons z zs =>
          have hz : z ∈ y :: l := (List.mem_filter.1 (hf ▸ List.mem_cons_self z zs)).1
          have hxz : x.1.start.time ≤ z.1.start.time := by
            rcases List.mem_cons.1 hz with h | h
            · rw [h]; exact hr
            · exact le_trans hr (hs'.1 z h)
          rw [List.orderedInsert, if_pos hxz]
      · rw [List.filter_cons_of_neg hp, if_neg hp]
    · rw [List.orderedInsert, if_neg hr]
      by_cases hy : p y
      · rw [List.filter_cons_of_pos hy, List.filter_cons_of_pos hy, ih hs'.2]
        by_cases hp : p x
        · rw [if_pos hp, if_pos hp, List.orderedInsert, if_neg hr]
        · rw [if_neg hp, if_neg hp]
      · rw [List.filter_cons_of_neg hy, List.filter_cons_of_neg hy, ih hs'.2]

theorem filter_sortMarked (p : Event × Bool → Bool) (l : List (Event × Bool)) :
    (sortMarked l).filter p = sortMarked (l.filter p) := by
  induction l with
  | nil => rfl
  | cons x l ih =>
    have hsorted : (sortMarked l).Sorted (fun a b => a.1.start.time ≤ b.1.start.time) :=
      List.sorted_insertionSort _ l
    rw [sortMarked_cons, filter_orderedInsert_marked p x (sortMarked l) hsorted, ih]
    by_cases hp : p x
    · rw [if_pos hp, List.filter_cons_of_pos hp, sortMarked_cons]
    · rw [if_neg hp, List.filter_cons_of_neg hp]

theorem map_sortMarked (l : List (Event × Bool)) :
    (sortMarked l).map Prod.fst = sortByStart (l.map Prod.fst) :=
  List.map_insertionSort (fun a b : Event × Bool => a.1.start.time ≤ b.1.start.time)
    (fun a b : Event => a.start.time ≤ b.start.time) Prod.fst l (fun _ _ _ _ => Iff.rfl)

theorem mergeSorted_skip (l : List (Event × Bool))
    (hs : l.Sorted (fun a b => a.1.start.time ≤ b.1.start.time)) (hcov : Covered [] l) :
    (mergeSorted (l.map Prod.fst)).map normEnd
      = (mergeSorted ((l.filter (fun x => !x.2)).map Prod.fst)).map normEnd := by
  cases l with
  | nil => rfl
  | cons y l =>
    obtain ⟨e, b⟩ := y
    cases b with
    | true =>
      obtain ⟨⟨a, ha, _⟩, _⟩ := hcov
      simp at ha
    | false =>
      have hs' := List.sorted_cons.1 hs
      have hfil : ((e, false) :: l).filter (fun x => !x.2)
          = (e, false) :: l.filter (fun x => !x.2) := by
        simp [List.filter]
      rw [hfil]
      show (mergeRun e (l.map Prod.fst)).map normEnd
        = (mergeRun e ((l.filter (fun x => !x.2)).map Prod.fst)).map normEnd
      apply mergeRun_skip l e e [e] e.start.time hs'.2 hs'.1 hcov
      · intro a ha
        have : a = e := by simpa using ha
        exact Or.inl (by rw [this])
      · rfl

theorem mergeBucket_absorb (base ov finals : List Event)
    (hov : ∀ o ∈ ov, ∃ a ∈ base, Dominates a o) :
    (mergeBucket (base ++ ov ++ finals)).map normEnd
      = (mergeBucket (base ++ finals)).map normEnd := by
  have hmap : (base.map (fun e => (e, false))
      ++ (ov.map (fun e => (e, true)) ++ finals.map (fun e => (e, false)))).map Prod.fst
      = base ++ ov ++ finals := by
    simp [Function.comp_def]
  have hfil : ((base.map (fun e => (e, false))
      ++ (ov.map (fun e => (e, true)) ++ finals.map (fun e => (e, false)))).filter
        (fun x => !x.2)).map Prod.fst = base ++ finals := by
    simp [List.filter_append, List.filter_map, Function.comp_def]
  unfold mergeBucket
  rw [← hmap, ← hfil, ← map_sortMarked, ← map_sortMarked, ← filter_sortMarked]
  exact mergeSorted_skip _ (List.sorted_insertionSort _ _) (covered_sorted_all base ov finals hov)

theorem keysOf_absorb {κ α : Type} [DecidableEq κ] (key : α → κ) (base ov finals : List α)
    (hov : ∀ o ∈ ov, ∃ a ∈ base, key a = key o) :
    keysOf key (base ++ ov ++ finals) = keysOf key (base ++ finals) := by
  have h1 : keysOf key (base ++ ov) = keysOf key base := by
    rw [keysOf_append]
    have hz : (keysOf key ov).filter (fun k => decide (k ∉ keysOf key base)) = [] := by
      rw [List.filter_eq_nil_iff]
      intro k hk
      obtain ⟨o, ho, hko⟩ := (mem_keysOf key ov k).1 hk
      obtain ⟨a, ha, hka⟩ := hov o ho
      have : k ∈ keysOf key base := (mem_keysOf key base k).2 ⟨a, ha, hka.trans hko⟩
      simp [this]
    rw [hz, List.append_nil]
  rw [keysOf_append key (base ++ ov) finals, h1, ← keysOf_append]

theorem mergeUser_absorb (base ov finals : List Event)
    (hov : ∀ o ∈ ov, ∃ a ∈ base, a.group = o.group ∧ Dominates a o) :
    (mergeUser (base ++ ov ++ finals)).map normEnd
      = (mergeUser (base ++ finals)).map normEnd := by
  rw [mergeUser_eq, mergeUser_eq,
    keysOf_absorb (fun event : Event => event.group) base ov finals
      (fun o ho => by
        obtain ⟨a, ha, hg, _⟩ := hov o ho
        exact ⟨a, ha, hg⟩),
    List.map_flatMap, List.map_flatMap]
  apply List.flatMap_congr
  intro g _
  rw [List.filter_append, List.filter_append, List.filter_append]
  apply mergeBucket_absorb
  intro o ho
  have ho' := List.mem_filter.1 ho
  obtain ⟨a, ha, hg, hd⟩ := hov o ho'.1
  refine ⟨a, List.mem_filter.2 ⟨ha, ?_⟩, hd⟩
  have : o.group = g := by simpa using ho'.2
  simp [hg, this]

theorem groupsOk_absorb (base ov finals : List Event)
    (hov : ∀ o ∈ ov, ∃ a ∈ base, a.group = o.group) :
    groupsOk (base ++ ov ++ finals) = groupsOk (base ++ finals) := by
  unfold groupsOk
  congr 1
  rw [Bool.eq_iff_iff]
  simp only [List.any_eq_true, List.mem_append]
  constructor
  · rintro ⟨x, (((hx | hx) | hx)), hp⟩
    · exact ⟨x, Or.inl hx, hp⟩
    · obtain ⟨a, ha, hg⟩ := hov x hx
      exact ⟨a, Or.inl ha, by rw [hg]; exact hp⟩
    · exact ⟨x, Or.inr hx, hp⟩
  · rintro ⟨x, (hx | hx), hp⟩
    · exact ⟨x, Or.inl (Or.inl hx), hp⟩
    · exact ⟨x, Or.inr hx, hp⟩

theorem mergeEvents_absorb (base ov finals : List Event) (now now' : Nat)
    (hov : ∀ o ∈ ov, ∃ a ∈ base, a.userId = o.userId ∧ a.group = o.group ∧ Dominates a o) :
    (mergeEvents (base ++ ov ++ finals) false now).map normEnd
      = (mergeEvents (base ++ finals) false now').map normEnd := by
  have hfilter : ∀ u : Nat, ∀ o ∈ ov.filter (fun e => decide (e.userId = u)),
      ∃ a ∈ base.filter (fun e => decide (e.userId = u)), a.group = o.group ∧ Dominates a o := by
    intro u o ho
    have ho' := List.mem_filter.1 ho
    obtain ⟨a, ha, hu, hg, hd⟩ := hov o ho'.1
    refine ⟨a, List.mem_filter.2 ⟨ha, ?_⟩, hg, hd⟩
    have : o.userId = u := by simpa using ho'.2
    simp [hu, this]
  have hsafe : safeUsers (base ++ ov ++ finals) = safeUsers (base ++ finals) := by
    unfold safeUsers
    rw [keysOf_absorb (fun event : Event => event.userId) base ov finals
      (fun o ho => by
        obtain ⟨a, ha, hu, _⟩ := hov o ho
        exact ⟨a, ha, hu⟩)]
    congr 1
    funext u
    rw [List.filter_append, List.filter_append, List.filter_append]
    apply groupsOk_absorb
    intro o ho
    obtain ⟨a, ha, hg, _⟩ := hfilter u o ho
    exact ⟨a, ha, hg⟩
  rw [mergeEvents_merge, mergeEvents_merge, hsafe, List.map_flatMap, List.map_flatMap]
  apply List.flatMap_congr
  intro u _
  rw [List.filter_append, List.filter_append, List.filter_append]
  exact mergeUser_absorb _ _ _ (hfilter u)
theorem mem_mergeRun_end (current : Event) (rest : List Event) (x : Event)
    (hx : x ∈ mergeRun current rest) : ∃ z ∈ current :: rest, x.end_ = z.end_ := by
  induction rest generalizing current with
  | nil =>
    have : x = current := by simpa [mergeRun] using hx
    exact ⟨current, by simp, by rw [this]⟩
  | cons next rest ih =>
    unfold mergeRun at hx
    split at hx
    · obtain ⟨z, hz, h⟩ := ih _ hx
      rcases List.mem_cons.1 hz with hz | hz
      · subst hz
        by_cases hgt : current.end_.time > next.end_.time
        · refine ⟨current, by simp, ?_⟩
          rw [h]
          simp [hgt]
        · refine ⟨next, by simp, ?_⟩
          rw [h]
          simp [hgt]
      · exact ⟨z, by simp [hz], h⟩
    · rcases List.mem_cons.1 hx with hx | hx
      · exact ⟨current, by simp, by rw [hx]⟩
      · obtain ⟨z, hz, h⟩ := ih _ hx
        exact ⟨z, List.mem_cons_of_mem _ hz, h⟩

theorem mem_mergeEvents_end (events : List Event) (now : Nat) (x : Event)
    (hx : x ∈ mergeEvents events false now) : ∃ z ∈ events, x.end_ = z.end_ := by
  rw [mergeEvents_merge] at hx
  obtain ⟨u, _, hx1⟩ := List.mem_flatMap.1 hx
  obtain ⟨g, _, hx2⟩ := List.mem_flatMap.1 hx1
  unfold mergeBucket at hx2
  cases hs : sortByStart ((events.filter (fun e => decide (e.userId = u))).filter
      (fun e => decide (e.group = g))) with
  | nil => rw [hs] at hx2; simp [mergeSorted] at hx2
  | cons first rest =>
    rw [hs] at hx2
    obtain ⟨z, hz, h⟩ := mem_mergeRun_end first rest x hx2
    have hz' := (mem_sortByStart _ z).1 (hs ▸ hz)
    exact ⟨z, (List.mem_filter.1 (List.mem_filter.1 hz').1).1, h⟩

theorem forLoop_override_anchored (items rest : List Event) (current : Event)
    (result : List Event) (n : Nat) (hres : ∀ o ∈ result, Anchored items o)
    (hs : (current :: rest).Sorted (fun a b => a.start.time ≤ b.start.time))
    (hin : ∀ e ∈ current :: rest, e ∈ items) :
    (∀ o ∈ (forLoop true rest current result n).2.1, Anchored items o)
      ∧ (forLoop true rest current result n).1 ∈ items := by
  induction rest generalizing current result n with
  | nil => exact ⟨by simpa [forLoop] using hres, by simpa [forLoop] using hin⟩
  | cons next rest ih =>
    have hs' := List.sorted_cons.1 hs
    have hin' : ∀ e ∈ next :: rest, e ∈ items := fun e he => hin e (List.mem_cons_of_mem _ he)
    by_cases hc : current.end_.time > next.start.time
    · simp only [forLoop, hc, if_true]
      apply ih next _ _ _ hs'.2 hin'
      intro o ho
      rcases List.mem_append.1 ho with ho | ho
      · exact hres o ho
      · have : o = { current with start := next.start, id := n } := by simpa using ho
        subst this
        refine ⟨current, hin current (by simp), rfl, rfl, rfl, ?_, ?_, ?_⟩
        · exact hs'.1 next (by simp)
        · exact le_of_lt hc
        · exact le_refl _
    · simp only [forLoop, hc, if_true, if_false]
      exact ih next _ _ hres hs'.2 hin'

theorem processGroup_override_anchored (items bucket : List Event) (st : List Event × Nat)
    (hwf : ∀ e ∈ items, e.start.time ≤ e.end_.time) (hsub : ∀ e ∈ bucket, e ∈ items)
    (hst : ∀ o ∈ st.1, Anchored items o) :
    ∀ o ∈ (processGroup true bucket st).1, Anchored items o := by
  unfold processGroup
  have hsorted := sorted_sortByStart bucket
  have hmem : ∀ e ∈ sortByStart bucket, e ∈ items :=
    fun e he => hsub e ((mem_sortByStart bucket e).1 he)
  cases hs : sortByStart bucket with
  | nil => exact hst
  | cons first rest =>
    rw [hs] at hsorted hmem
    have hl := forLoop_override_anchored items rest first [] st.2 (by simp) hsorted hmem
    simp only [if_true]
    intro o ho
    rcases List.mem_append.1 ho with ho | ho
    · exact hst o ho
    · rcases List.mem_append.1 ho with ho | ho
      · exact hl.1 o ho
      · have hoe : o = { (forLoop true rest first [] st.2).1 with
            id := (forLoop true rest first [] st.2).2.2 } := by simpa using ho
        rw [hoe]
        refine ⟨(forLoop true rest first [] st.2).1, hl.2, rfl, rfl, rfl, le_refl _, ?_,
          le_refl _⟩
        exact hwf (forLoop true rest first [] st.2).1 hl.2

theorem mergeEvents_override_anchored (items : List Event) (now : Nat)
    (hwf : ∀ e ∈ items, e.start.time ≤ e.end_.time) :
    ∀ o ∈ mergeEvents items true now, Anchored items o := by
  obtain ⟨st, hst, heq⟩ := mergeEvents_invariant
    (fun st : List Event × Nat => ∀ o ∈ st.1, Anchored items o) true items now
    (fun st u g hst => processGroup_override_anchored items _ st hwf
      (fun e he => (List.mem_filter.1 (List.mem_filter.1 he).1).1) hst)
    (by intro o ho; simp at ho)
  rw [heq]
  exact hst

/-- C10, amended. When every base item has `start ≤ end`, merging the base items, the
override records made from them and the final-schedule items gives the same list as
merging the base items and the final-schedule items alone, record for record (length,
order, ids and every other field), except that the raw text of a record's `end` may
differ between two texts of one instant; the two lists are identical when, among the base
and final items, ends of equal instant have equal text. -/
theorem mergeEvents_override_absorbed (items finals : List Event) (now now1 now2 : Nat)
    (hwf : ∀ e ∈ items, e.start.time ≤ e.end_.time) :
    (mergeEvents (items ++ mergeEvents items true now ++ finals) false now1).map normEnd
        = (mergeEvents (items ++ finals) false now2).map normEnd
    ∧ ((∀ a ∈ items ++ finals, ∀ b ∈ items ++ finals,
          a.end_.time = b.end_.time → a.end_ = b.end_) →
        mergeEvents (items ++ mergeEvents items true now ++ finals) false now1
          = mergeEvents (items ++ finals) false now2) := by
  have hanch := mergeEvents_override_anchored items now hwf
  have hnorm := mergeEvents_absorb items (mergeEvents items true now) finals now1 now2
    (fun o ho => by
      obtain ⟨a, ha, hu, hg, _, hd⟩ := hanch o ho
      exact ⟨a, ha, hu, hg, hd⟩)
  refine ⟨hnorm, ?_⟩
  intro hcan
  apply eq_of_map_normEnd _ _ hnorm
  intro x hx y hy hxy
  obtain ⟨z, hz, hxz⟩ := mem_mergeEvents_end _ _ x hx
  obtain ⟨w, hw, hyw⟩ := mem_mergeEvents_end _ _ y hy
  have hz' : ∃ z' ∈ items ++ finals, x.end_ = z'.end_ := by
    rcases List.mem_append.1 hz with hz | hz
    · rcases List.mem_append.1 hz with hz | hz
      · exact ⟨z, List.mem_append_left _ hz, hxz⟩
      · obtain ⟨a, ha, _, _, he, _⟩ := hanch z hz
        exact ⟨a, List.mem_append_left _ ha, hxz.trans he⟩
    · exact ⟨z, List.mem_append_right _ hz, hxz⟩
  obtain ⟨z', hz'mem, hxz'⟩ := hz'
  rw [hxz', hyw]
  apply hcan z' hz'mem w hw
  rw [← hxz', ← hyw]
  exact hxy

/-- C10 at Scenario B with a final-schedule record of the same owner. -/
theorem mergeEvents_override_absorbed_witness :
    (∀ e ∈ [scenarioB1, scenarioB2], e.start.time ≤ e.end_.time)
    ∧ (mergeEvents ([scenarioB1, scenarioB2] ++ mergeEvents [scenarioB1, scenarioB2] true 1000
          ++ [{ scenarioA1 with group := "Final Schedule" }]) false 2000).map normEnd
        = (mergeEvents ([scenarioB1, scenarioB2]
            ++ [{ scenarioA1 with group := "Final Schedule" }]) false 3000).map normEnd :=
  ⟨by decide,
   (mergeEvents_override_absorbed [scenarioB1, scenarioB2]
     [{ scenarioA1 with group := "Final Schedule" }] 1000 2000 3000 (by decide)).1⟩

/-- C10 as stated fails: for three base records of one owner and group with `start ≤ end`,
the first two ending at the same instant written in two ways, the merge with the override
records keeps the end text of the first record and the merge without them the end text of
the second, so the two lists differ. -/
theorem mergeEvents_override_absorbed_fails :
    (∀ e ∈ [tie1, tie2, tie3], e.start.time ≤ e.end_.time)
    ∧ mergeEvents ([tie1, tie2, tie3] ++ mergeEvents [tie1, tie2, tie3] true 1000 ++ [])
          false 2000
        = [tie1, tie3]
    ∧ mergeEvents ([tie1, tie2, tie3] ++ []) false 2000
        = [{ tie1 with end_ := tie2.end_ }, tie3]
    ∧ mergeEvents ([tie1, tie2, tie3] ++ mergeEvents [tie1, tie2, tie3] true 1000 ++ [])
          false 2000
        ≠ mergeEvents ([tie1, tie2, tie3] ++ []) false 2000 := by
  decide
/-! ## C8: the names and identifiers handed to the data sets -/

theorem digitsValue_foldl (cs : List Char) (a : Nat) :
    cs.foldl (fun acc c => 10 * acc + (c.toNat - 48)) a
      = a * 10 ^ cs.length + digitsValue cs := by
  induction cs generalizing a with
  | nil => simp [digitsValue]
  | cons c cs ih =>
    unfold digitsValue
    rw [List.foldl_cons, List.foldl_cons, ih, ih (10 * 0 + (c.toNat - 48)), List.length_cons]
    ring

theorem digitsValue_cons (c : Char) (cs : List Char) :
    digitsValue (c :: cs) = (c.toNat - 48) * 10 ^ cs.length + digitsValue cs := by
  have := digitsValue_foldl cs (10 * 0 + (c.toNat - 48))
  unfold digitsValue at this ⊢
  rw [List.foldl_cons, this]
  ring

theorem digitChar_value (k : Nat) (hk : k < 10) : (Nat.digitChar k).toNat - 48 = k := by
  interval_cases k <;> rfl

theorem digitsValue_toDigitsCore (fuel n : Nat) (ds : List Char) (h : n < fuel) :
    digitsValue (Nat.toDigitsCore 10 fuel n ds) = n * 10 ^ ds.length + digitsValue ds := by
  induction fuel generalizing n ds with
  | zero => omega
  | succ fuel ih =>
    unfold Nat.toDigitsCore
    simp only
    by_cases h0 : n / 10 = 0
    · rw [if_pos h0, digitsValue_cons, digitChar_value _ (Nat.mod_lt _ (by decide))]
      have : n % 10 = n := Nat.mod_eq_of_lt (by omega)
      rw [this]
    · rw [if_neg h0, ih (n / 10) _ (by omega), digitsValue_cons,
        digitChar_value _ (Nat.mod_lt _ (by decide)), List.length_cons]
      have hn : n = 10 * (n / 10) + n % 10 := (Nat.div_add_mod n 10).symm
      generalize n / 10 = q at hn ⊢
      generalize n % 10 = r at hn ⊢
      rw [hn]
      ring

theorem digitsValue_toString (n : Nat) : digitsValue (toString n).data = n := by
  show digitsValue (Nat.toDigitsCore 10 (n + 1) n []) = n
  rw [digitsValue_toDigitsCore (n + 1) n [] (by omega)]
  simp [digitsValue]

theorem layerName_injective (a b : Nat)
    (h : "Layer " ++ toString a = "Layer " ++ toString b) : a = b := by
  have hd := congrArg String.data h
  rw [String.data_append, String.data_append] at hd
  have hd' := List.append_cancel_left hd
  rw [← digitsValue_toString a, ← digitsValue_toString b, hd']

theorem layerName_ne_override (s : String) : "Layer " ++ s ≠ "override Layer" := by
  intro h
  have hd := congrArg String.data h
  rw [String.data_append] at hd
  have h0 := congrArg List.head? hd
  simp at h0

theorem layerName_ne_final (s : String) : "Layer " ++ s ≠ "Final Schedule" := by
  intro h
  have hd := congrArg String.data h
  rw [String.data_append] at hd
  have h0 := congrArg List.head? hd
  simp at h0

theorem layerName_not_inherited (s : String) : "Layer " ++ s ∉ objectPrototypeKeys := by
  intro h
  have hhead : ∀ k ∈ objectPrototypeKeys, k.data.head? ≠ some 'L' := by decide
  have := hhead _ h
  rw [String.data_append] at this
  simp at this
theorem dataSetAdd_distinct {α ι : Type} [DecidableEq ι] (idOf : α → ι) (xs held : List α)
    (h : ((held ++ xs).map idOf).Nodup) : dataSetAdd idOf held xs = some (held ++ xs) := by
  induction xs generalizing held with
  | nil => simp [dataSetAdd]
  | cons x xs ih =>
    have hx : idOf x ∉ held.map idOf := by
      rw [List.map_append, List.map_cons] at h
      intro hm
      have := (List.nodup_append.1 h).2.2
      exact this hm (by simp)
    rw [dataSetAdd, if_neg hx, ih (held ++ [x]) (by simpa using h)]
    simp

theorem pushEntries_ids (groupName : String) (entries : List Entry) (st : List Event × Nat) :
    (pushEntries groupName entries st).1.map (fun e => e.id)
        = st.1.map (fun e => e.id) ++ List.range' st.2 entries.length
      ∧ (pushEntries groupName entries st).2 = st.2 + entries.length := by
  unfold pushEntries
  induction entries generalizing st with
  | nil => simp
  | cons entry entries ih =>
    rw [List.foldl_cons]
    obtain ⟨h1, h2⟩ := ih (st.1 ++ [makeItem st.2 groupName entry], st.2 + 1)
    rw [h1, h2]
    constructor
    · simp [makeItem, List.range'_succ]
    · simp only [List.length_cons]
      omega

theorem addLayers_cons (layer : Layer) (layers : List Layer) (st : Assembly) :
    addLayers (layer :: layers) st = addLayers layers
      { items := (pushEntries ("Layer " ++ toString layer.number.val) layer.layers
          (st.items, st.id)).1,
        groups := st.groups ++ [{ id := "Layer " ++ toString layer.number.val,
                                  content := "Layer " ++ toString layer.number.val }],
        id := (pushEntries ("Layer " ++ toString layer.number.val) layer.layers
          (st.items, st.id)).2 } := rfl

theorem addLayers_ids (layers : List Layer) (st : Assembly) :
    (addLayers layers st).items.map (fun e => e.id)
        = st.items.map (fun e => e.id)
          ++ List.range' st.id (layers.map (fun layer => layer.layers.length)).sum
      ∧ (addLayers layers st).id = st.id + (layers.map (fun layer => layer.layers.length)).sum := by
  induction layers generalizing st with
  | nil => simp [addLayers]
  | cons layer layers ih =>
    rw [addLayers_cons]
    obtain ⟨h1, h2⟩ := ih
      { items := (pushEntries ("Layer " ++ toString layer.number.val) layer.layers
          (st.items, st.id)).1,
        groups := st.groups ++ [{ id := "Layer " ++ toString layer.number.val,
                                  content := "Layer " ++ toString layer.number.val }],
        id := (pushEntries ("Layer " ++ toString layer.number.val) layer.layers
          (st.items, st.id)).2 }
    obtain ⟨p1, p2⟩ := pushEntries_ids ("Layer " ++ toString layer.number.val) layer.layers
      (st.items, st.id)
    rw [h1, h2]
    simp only [p1, p2, List.map_cons, List.sum_cons]
    constructor
    · rw [List.append_assoc, List.range'_append_1, Nat.add_comm (List.map _ layers).sum]
    · omega

theorem addLayers_groups (layers : List Layer) (st : Assembly) :
    (addLayers layers st).groups =
      st.groups ++ layers.map (fun layer =>
        { id := "Layer " ++ toString layer.number.val,
          content := "Layer " ++ toString layer.number.val }) := by
  induction layers generalizing st with
  | nil => simp [addLayers]
  | cons layer layers ih =>
    rw [addLayers_cons, ih]
    simp

theorem mergeRun_ids_sublist (current : Event) (rest : List Event) :
    List.Sublist ((mergeRun current rest).map (fun e => e.id))
      ((current :: rest).map (fun e => e.id)) := by
  induction rest generalizing current with
  | nil => simp [mergeRun]
  | cons next rest ih =>
    unfold mergeRun
    split
    · have := ih { current with
        end_ := if current.end_.time > next.end_.time then current.end_ else next.end_ }
      simp only [List.map_cons] at this ⊢
      exact this.trans ((List.sublist_cons_self _ _).cons₂ _)
    · simp only [List.map_cons]
      exact (ih next).cons₂ _

theorem mergeBucket_ids_nodup (bucket : List Event)
    (h : (bucket.map (fun e => e.id)).Nodup) :
    ((mergeBucket bucket).map (fun e => e.id)).Nodup := by
  unfold mergeBucket
  have hperm : ((sortByStart bucket).map (fun e => e.id)).Nodup :=
    ((perm_sortByStart bucket).map _).nodup_iff.2 h
  cases hs : sortByStart bucket with
  | nil => simp [mergeSorted]
  | cons first rest =>
    rw [hs] at hperm
    exact hperm.sublist (mergeRun_ids_sublist first rest)

theorem mem_block_origin (events : List Event) (u : Nat) (g : String) (x : Event)
    (hx : x ∈ mergeBucket ((events.filter (fun e => decide (e.userId = u))).filter
      (fun e => decide (e.group = g)))) :
    ∃ y ∈ events, x.id = y.id ∧ y.userId = u ∧ y.group = g := by
  obtain ⟨y, hy, hid, _, _⟩ := mem_mergeBucket_origin _ x hx
  have h1 := List.mem_filter.1 hy
  have h2 := List.mem_filter.1 h1.1
  exact ⟨y, h2.1, hid, by simpa using h2.2, by simpa using h1.2⟩

theorem mergeEvents_ids_nodup (events : List Event) (now : Nat)
    (h : (events.map (fun e => e.id)).Nodup) :
    ((mergeEvents events false now).map (fun e => e.id)).Nodup := by
  have hinj := List.inj_on_of_nodup_map h
  have hsub : ∀ (p : Event → Bool), ((events.filter p).map (fun e => e.id)).Nodup :=
    fun p => h.sublist ((List.filter_sublist events).map _)
  show List.Pairwise (fun a b => a ≠ b) _
  rw [List.pairwise_map, mergeEvents_merge, List.pairwise_flatMap]
  constructor
  · intro u _
    rw [mergeUser_eq, List.pairwise_flatMap]
    constructor
    · intro g _
      have hb : (((events.filter (fun e => decide (e.userId = u))).filter
          (fun e => decide (e.group = g))).map (fun e => e.id)).Nodup :=
        (hsub _).sublist ((List.filter_sublist _).map _)
      exact List.pairwise_map.1 (mergeBucket_ids_nodup _ hb)
    · refine (groupKeys_nodup _).imp ?_
      intro g1 g2 hne x hx y hy hid
      obtain ⟨a, ha, hxa, _, hga⟩ := mem_block_origin events u g1 x hx
      obtain ⟨b, hb, hyb, _, hgb⟩ := mem_block_origin events u g2 y hy
      have hab : a = b := hinj ha hb (by rw [← hxa, ← hyb, hid])
      exact hne (by rw [← hga, ← hgb, hab])
  · refine (safeUsers_nodup _).imp ?_
    intro u1 u2 hne x hx y hy hid
    obtain ⟨g1, _, hx'⟩ := List.mem_flatMap.1 hx
    obtain ⟨g2, _, hy'⟩ := List.mem_flatMap.1 hy
    obtain ⟨a, ha, hxa, hua, _⟩ := mem_block_origin events u1 g1 x hx'
    obtain ⟨b, hb, hyb, hub, _⟩ := mem_block_origin events u2 g2 y hy'
    have hab : a = b := hinj ha hb (by rw [← hxa, ← hyb, hid])
    exact hne (by rw [← hua, ← hub, hab])
theorem assembled_ids_nodup (n k f now : Nat) (h : n + f < now) :
    (List.range' 1 n ++ List.range' now k ++ List.range' (1 + n) f).Nodup := by
  rw [List.nodup_append, List.nodup_append]
  refine ⟨⟨List.nodup_range' 1 n, List.nodup_range' now k, ?_⟩, List.nodup_range' (1 + n) f, ?_⟩
  · intro a ha hb
    rw [List.mem_range'_1] at ha hb
    omega
  · intro a ha hb
    rw [List.mem_append, List.mem_range'_1, List.mem_range'_1] at ha
    rw [List.mem_range'_1] at hb
    omega

theorem group_ids_nodup (layers : List Layer)
    (hnum : (layers.map (fun layer => layer.number)).Nodup) :
    ((layers.map (fun layer : Layer =>
        ({ id := "Layer " ++ toString layer.number.val,
           content := "Layer " ++ toString layer.number.val } : Group))
      ++ ([{ id := "override Layer", content := "Override Layer" },
           { id := "Final Schedule", content := "Final Schedule" }] : List Group)).map
        (fun group : Group => group.id)).Nodup := by
  have hnames : (layers.map (fun layer => "Layer " ++ toString layer.number.val)).Nodup := by
    have hinj : Function.Injective
        (fun n : Fin 9007199254740992 => "Layer " ++ toString n.val) :=
      fun a b hab => Fin.ext (layerName_injective a.val b.val hab)
    have := hnum.map hinj
    rwa [List.map_map] at this
  have hmap : (layers.map (fun layer : Layer =>
        ({ id := "Layer " ++ toString layer.number.val,
           content := "Layer " ++ toString layer.number.val } : Group))).map
        (fun group : Group => group.id)
      = layers.map (fun layer => "Layer " ++ toString layer.number.val) := by
    rw [List.map_map]
    rfl
  rw [List.map_append, hmap, List.nodup_append]
  refine ⟨hnames, by decide, ?_⟩
  intro s hs hs'
  obtain ⟨layer, _, hlayer⟩ := List.mem_map.1 hs
  have hcases : s = "override Layer" ∨ s = "Final Schedule" := by
    simpa using hs'
  rcases hcases with h | h
  · exact layerName_ne_override _ (hlayer.trans h)
  · exact layerName_ne_final _ (hlayer.trans h)

theorem prepareTimelineData_returns (data : ScheduleData) (now now2 : Nat)
    (hnum : (data.layers.map (fun layer => layer.number)).Nodup)
    (hnow : entryCount data < now) :
    prepareTimelineData data now now2 = some
      { items := mergeEvents
          (pushEntries "Final Schedule" data.finalSchedule
            ((addLayers data.layers { items := [], groups := [], id := 1 }).items
              ++ mergeEvents (addLayers data.layers { items := [], groups := [], id := 1 }).items
                  true now,
             (addLayers data.layers { items := [], groups := [], id := 1 }).id)).1 false now2,
        groups := data.layers.map (fun layer =>
            ({ id := "Layer " ++ toString layer.number.val,
               content := "Layer " ++ toString layer.number.val } : Group))
          ++ [{ id := "override Layer", content := "Override Layer" },
              { id := "Final Schedule", content := "Final Schedule" }] } := by
  obtain ⟨hA1, hA2⟩ := addLayers_ids data.layers { items := [], groups := [], id := 1 }
  have hG := addLayers_groups data.layers { items := [], groups := [], id := 1 }
  have hov := mergeEvents_override_minted
    (addLayers data.layers { items := [], groups := [], id := 1 }).items now
  obtain ⟨hP1, _⟩ := pushEntries_ids "Final Schedule" data.finalSchedule
    ((addLayers data.layers { items := [], groups := [], id := 1 }).items
      ++ mergeEvents (addLayers data.layers { items := [], groups := [], id := 1 }).items
          true now,
     (addLayers data.layers { items := [], groups := [], id := 1 }).id)
  have hids : ((pushEntries "Final Schedule" data.finalSchedule
      ((addLayers data.layers { items := [], groups := [], id := 1 }).items
        ++ mergeEvents (addLayers data.layers { items := [], groups := [], id := 1 }).items
            true now,
       (addLayers data.layers { items := [], groups := [], id := 1 }).id)).1.map
        (fun e => e.id)).Nodup := by
    rw [hP1]
    simp only [List.map_append, hA1, hA2, hov, List.map_nil, List.nil_append]
    apply assembled_ids_nodup
    unfold entryCount at hnow
    exact hnow
  have hitems := dataSetAdd_distinct (fun item : Event => item.id) _ []
    (by simpa using mergeEvents_ids_nodup _ now2 hids)
  have hgroups := dataSetAdd_distinct (fun group : Group => group.id)
    (data.layers.map (fun layer : Layer =>
        ({ id := "Layer " ++ toString layer.number.val,
           content := "Layer " ++ toString layer.number.val } : Group))
      ++ ([{ id := "override Layer", content := "Override Layer" },
           { id := "Final Schedule", content := "Final Schedule" }] : List Group)) []
    (by rw [List.nil_append]; exact group_ids_nodup data.layers hnum)
  unfold prepareTimelineData
  simp only [hG, List.nil_append, List.append_assoc, List.singleton_append] at hitems hgroups ⊢
  rw [hitems, hgroups]

/-- C8, amended. For every schedule dataset whose layer numbers are pairwise distinct,
with `Date.now()` above the number of its entries, `prepareTimelineData` returns, and its
group descriptors are one `Layer <number>` descriptor per base layer in declaration
order, then `override Layer`, then `Final Schedule`; with no layers and no final schedule
(Scenario C) the groups are those two and there is no item. -/
theorem prepareTimelineData_groups (data : ScheduleData) (now now2 : Nat)
    (hnum : (data.layers.map (fun layer => layer.number)).Nodup)
    (hnow : entryCount data < now) :
    (prepareTimelineData data now now2).map (fun r => r.groups) = some
        (data.layers.map (fun layer =>
          ({ id := "Layer " ++ toString layer.number.val,
             content := "Layer " ++ toString layer.number.val } : Group))
        ++ [{ id := "override Layer", content := "Override Layer" },
            { id := "Final Schedule", content := "Final Schedule" }])
    ∧ prepareTimelineData { layers := [], finalSchedule := [] } now now2 = some
        { items := [],
          groups := [{ id := "override Layer", content := "Override Layer" },
                     { id := "Final Schedule", content := "Final Schedule" }] } := by
  constructor
  · rw [prepareTimelineData_returns data now now2 hnum hnow]
    rfl
  · rfl

/-- C8 on a schedule with one layer and one entry. -/
theorem prepareTimelineData_groups_witness :
    (oneEntrySchedule.layers.map (fun layer => layer.number)).Nodup
    ∧ entryCount oneEntrySchedule < 1000
    ∧ (prepareTimelineData oneEntrySchedule 1000 2000).map (fun r => r.groups) = some
        [{ id := "Layer 1", content := "Layer 1" },
         { id := "override Layer", content := "Override Layer" },
         { id := "Final Schedule", content := "Final Schedule" }] :=
  ⟨by decide, by decide,
   (prepareTimelineData_groups oneEntrySchedule 1000 2000 (by decide) (by decide)).1⟩

/-- C8 as stated fails: with layers numbered 2, 1, 2 the group id `Layer 2` comes twice,
adding the groups to their data set raises, and `prepareTimelineData` returns nothing. -/
theorem prepareTimelineData_groups_fails :
    prepareTimelineData repeatedLayerSchedule 1000 2000 = none := by
  decide
/-! ## C7: the group of the override records, for every schedule -/

theorem forLoop_override_group (items rest : List Event) (current : Event)
    (result : List Event) (n : Nat) (hres : ∀ o ∈ result, ∃ a ∈ items, a.group = o.group)
    (hin : ∀ e ∈ current :: rest, e ∈ items) :
    (∀ o ∈ (forLoop true rest current result n).2.1, ∃ a ∈ items, a.group = o.group)
      ∧ (forLoop true rest current result n).1 ∈ items := by
  induction rest generalizing current result n with
  | nil => exact ⟨by simpa [forLoop] using hres, by simpa [forLoop] using hin⟩
  | cons next rest ih =>
    have hin' : ∀ e ∈ next :: rest, e ∈ items := fun e he => hin e (List.mem_cons_of_mem _ he)
    by_cases hc : current.end_.time > next.start.time
    · simp only [forLoop, hc, if_true]
      apply ih next _ _ _ hin'
      intro o ho
      rcases List.mem_append.1 ho with ho | ho
      · exact hres o ho
      · have : o = { current with start := next.start, id := n } := by simpa using ho
        subst this
        exact ⟨current, hin current (by simp), rfl⟩
    · simp only [forLoop, hc, if_true, if_false]
      exact ih next _ _ hres hin'

theorem processGroup_override_group (items bucket : List Event) (st : List Event × Nat)
    (hsub : ∀ e ∈ bucket, e ∈ items) (hst : ∀ o ∈ st.1, ∃ a ∈ items, a.group = o.group) :
    ∀ o ∈ (processGroup true bucket st).1, ∃ a ∈ items, a.group = o.group := by
  unfold processGroup
  have hmem : ∀ e ∈ sortByStart bucket, e ∈ items :=
    fun e he => hsub e ((mem_sortByStart bucket e).1 he)
  cases hs : sortByStart bucket with
  | nil => exact hst
  | cons first rest =>
    rw [hs] at hmem
    have hl := forLoop_override_group items rest first [] st.2 (by simp) hmem
    simp only [if_true]
    intro o ho
    rcases List.mem_append.1 ho with ho | ho
    · exact hst o ho
    · rcases List.mem_append.1 ho with ho | ho
      · exact hl.1 o ho
      · have hoe : o = { (forLoop true rest first [] st.2).1 with
            id := (forLoop true rest first [] st.2).2.2 } := by simpa using ho
        rw [hoe]
        exact ⟨(forLoop true rest first [] st.2).1, hl.2, rfl⟩

theorem mergeEvents_override_group (items : List Event) (now : Nat) :
    ∀ o ∈ mergeEvents items true now, ∃ a ∈ items, a.group = o.group := by
  obtain ⟨st, hst, heq⟩ := mergeEvents_invariant
    (fun st : List Event × Nat => ∀ o ∈ st.1, ∃ a ∈ items, a.group = o.group) true items now
    (fun st u g hst => processGroup_override_group items _ st
      (fun e he => (List.mem_filter.1 (List.mem_filter.1 he).1).1) hst)
    (by intro o ho; simp at ho)
  rw [heq]
  exact hst

theorem pushEntries_group (groupName : String) (entries : List Entry) (st : List Event × Nat)
    (e : Event) (he : e ∈ (pushEntries groupName entries st).1) :
    e ∈ st.1 ∨ e.group = groupName := by
  unfold pushEntries at he
  induction entries generalizing st with
  | nil => exact Or.inl he
  | cons entry entries ih =>
    rw [List.foldl_cons] at he
    rcases ih _ he with h | h
    · rcases List.mem_append.1 h with h | h
      · exact Or.inl h
      · have : e = makeItem st.2 groupName entry := by simpa using h
        exact Or.inr (by rw [this]; rfl)
    · exact Or.inr h

theorem addLayers_group (layers : List Layer) (st : Assembly) (e : Event)
    (he : e ∈ (addLayers layers st).items) :
    e ∈ st.items ∨ ∃ layer ∈ layers, e.group = "Layer " ++ toString layer.number.val := by
  induction layers generalizing st with
  | nil => exact Or.inl he
  | cons layer layers ih =>
    rw [addLayers_cons] at he
    rcases ih _ he with h | ⟨l, hl, hg⟩
    · rcases pushEntries_group _ _ _ e h with h' | h'
      · exact Or.inl h'
      · exact Or.inr ⟨layer, by simp, h'⟩
    · exact Or.inr ⟨l, List.mem_cons_of_mem _ hl, hg⟩

/-- C7. For every schedule, each record the override pass contributes keeps the group of
a base layer, `Layer <number>`, and none is labelled with the override group; for a
one-entry schedule the contributed record is the entry itself under `Layer 1`. -/
theorem overridenData_keeps_layer (data : ScheduleData) (now : Nat) :
    (∀ r ∈ overridenData data now,
        (∃ layer ∈ data.layers, r.group = "Layer " ++ toString layer.number.val)
          ∧ r.group ≠ "override Layer")
    ∧ overridenData oneEntrySchedule now =
        [{ id := now, content := some "Jack A", userId := 23,
           start := { text := "2024-01-01T09:00:00.000Z", time := 1704099600000 },
           end_ := { text := "2024-01-01T10:00:00.000Z", time := 1704103200000 },
           group := "Layer 1", title := some "Jack A", className := some "green" }] := by
  refine ⟨?_, rfl⟩
  intro r hr
  obtain ⟨a, ha, hg⟩ := mergeEvents_override_group _ now r hr
  rcases addLayers_group data.layers _ a ha with h | ⟨layer, hl, hlg⟩
  · simp at h
  · rw [← hg, hlg]
    exact ⟨⟨layer, hl, rfl⟩, layerName_ne_override _⟩

end TimelineChart
